import Mathlib

/-!
Verification of the finite-control-set MPC solver core of Soft4PES.

This file embeds, in Lean 4, the MPC solver family of the repository
(`soft4pes/control/mpc/solvers/`: `mpc_enum.py`, `mpc_bnb.py`,
`mpc_sphe_dec.py`, `mpc_QP.py`, `utils.py`) together with the converter
model (`soft4pes/model/conv/converter.py`) and the controller attribute
layout (`rl_grid_mpc_curr_ctr.py`), and proves or refutes the spec's
claims about them.

Embedding conventions:
* numpy floating point arithmetic is embedded as exact rational (`ℚ`)
  arithmetic; `np.inf` as the `⊤` of `WithTop ℚ` (addition on
  `WithTop ℚ` is `⊤`-absorbing, exactly like IEEE `inf + x = inf`);
* numpy 1-D arrays are `List ℚ`; the solver-internal pre-allocated
  arrays (`J`, `u_seq`, `U_temp`, ...) are total maps `ℕ → _` updated
  functionally, with in-bounds access discipline proved in the theorems;
* fallible Python code (undefined names, missing attributes, explicit
  `raise`, subscripting `None`) is embedded with `Except PyErr`;
* Python `for u in arr:` loops are explicit structural recursion on the
  candidate list; Python recursion is fueled by the quantity that the
  source makes decrease (`Np - k` for the tree searches, `3*Np - i` for
  the sphere decoder), with the fuel never exhausted on the invocations
  the theorems speak about.
-/

namespace Soft4PES

/-- A numeric 1-D array (numpy `ndarray` of shape `(n,)`), as exact rationals. -/
abbrev Vec := List ℚ

/-- A numeric 2-D array (matrix), row major. -/
abbrev Mat := List (List ℚ)

/-- Dot product of two vectors (`np.dot` on 1-D arrays). -/
def dot (a b : Vec) : ℚ := (List.zipWith (· * ·) a b).sum

/-- Matrix-vector product (`np.dot(M, v)`). -/
def matVec (M : Mat) (v : Vec) : Vec := M.map (fun row => dot row v)

/-- Elementwise difference of two vectors (`a - b` on numpy arrays). -/
def vsub (a b : Vec) : Vec := List.zipWith (· - ·) a b

/-- Squared Euclidean norm, `np.linalg.norm(v)**2` evaluated exactly. -/
def normSq (v : Vec) : ℚ := (v.map (fun q => q * q)).sum

/-- Absolute value, written out so that it evaluates by kernel
reduction (proved equal to `|q|` below). -/
def qabs (q : ℚ) : ℚ := if q < 0 then -q else q

/-- Binary maximum, written out so that it evaluates by kernel
reduction (proved equal to `max` below). -/
def qmax (a b : ℚ) : ℚ := if a ≤ b then b else a

/-- The 1-norm `np.linalg.norm(v, ord=1)`, i.e. the sum of absolute values. -/
def norm1 (v : Vec) : ℚ := (v.map (fun q => qabs q)).sum

/-- The infinity norm `np.linalg.norm(v, np.inf)` = `np.max(np.abs(v))`
for the nonempty length-3 vectors the solvers use (0 on the empty list). -/
def linf (v : Vec) : ℚ := (v.map (fun q => qabs q)).foldr qmax 0

/-- The Python exceptions the embedded code can raise.
`infeasibleOptimizationError` is the control-error named by the spec's
error taxonomy (§7); nothing in the source defines or raises it — it is
included only so that statements can compare the error the code actually
raises against the error the spec names. -/
inductive PyErr where
  | nameError
  | unboundLocal
  | attributeError
  | typeError
  | valueError
  | infeasibleOptimizationError
  deriving DecidableEq, Repr

instance exceptDecEq {e a : Type} [DecidableEq e] [DecidableEq a] :
    DecidableEq (Except e a) := fun x y =>
  match x, y with
  | .ok v, .ok w =>
    if h : v = w then isTrue (by rw [h]) else isFalse (by simp [h])
  | .error v, .error w =>
    if h : v = w then isTrue (by rw [h]) else isFalse (by simp [h])
  | .ok _, .error _ => isFalse (by simp)
  | .error _, .ok _ => isFalse (by simp)

/-- Python attribute lookup: a missing attribute raises `AttributeError`. -/
def pygetattr {α : Type} : Option α → Except PyErr α
  | some a => .ok a
  | none => .error .attributeError

/-- A Python value that is either an `int` or a `bool`, as returned by
`Converter.switching_constraint_violated` (which returns the int `0` for
`nl == 2` and a bool for `nl == 3`). -/
inductive PyTruth where
  | vint (n : ℤ)
  | vbool (b : Bool)
  deriving DecidableEq, Repr

/-- Python truthiness of a `PyTruth` value (`bool(x)`). -/
def PyTruth.truthy : PyTruth → Bool
  | .vint n => n != 0
  | .vbool b => b

/-! ## Switching constraints and allowed switch positions

Embeddings of the four implementations present in the source:
`Converter.switching_constraint_violated` (converter.py lines 49-72),
`MpcEnum.switching_constraint_violated` (mpc_enum.py lines 140-165),
`switching_constraint_violated` in solvers/utils.py (lines 7-33),
and the two `get_allowed_switch_positions` (mpc_sphe_dec.py lines
292-319, converter.py lines 74-101). -/

/-- Embeds `Converter.switching_constraint_violated` (converter.py 49-72):
for `nl == 2` it returns the int `0`; for `nl == 3` the bool
`np.max(np.abs(u_k - u_km1)) >= 2`; for any other `nl` the local `res` is
never assigned and `return res` raises `UnboundLocalError`. -/
def Converter_switching_constraint_violated (nl : ℕ) (u_k u_km1 : Vec) :
    Except PyErr PyTruth :=
  if nl = 2 then .ok (.vint 0)
  else if nl = 3 then .ok (.vbool (decide (2 ≤ linf (vsub u_k u_km1))))
  else .error .unboundLocal

/-- Embeds `MpcEnum.switching_constraint_violated` (mpc_enum.py 140-165):
identical branches to the converter method, with the `nl == 3` test written
`np.linalg.norm(uk - u_km1, np.inf) >= 2` (the same function of the inputs). -/
def MpcEnum_switching_constraint_violated (nl : ℕ) (uk u_km1 : Vec) :
    Except PyErr PyTruth :=
  if nl = 2 then .ok (.vint 0)
  else if nl = 3 then .ok (.vbool (decide (2 ≤ linf (vsub uk u_km1))))
  else .error .unboundLocal

/-- Embeds `switching_constraint_violated` from solvers/utils.py (lines 7-33).
For `nl == 2` it returns `False`.  For `nl == 3` the source evaluates
`np.linalg.norm(uk_abc - u_km1_abc, np.inf) >= 2`, but the function's
parameter is named `u_abc`, not `uk_abc`; the name `uk_abc` is defined
nowhere, so the branch raises `NameError` for every input.  For any other
`nl` it explicitly raises `ValueError`. -/
def utils_switching_constraint_violated (nl : ℕ) (_u_abc _u_km1_abc : Vec) :
    Except PyErr Bool :=
  if nl = 2 then .ok false
  else if nl = 3 then .error .nameError
  else .error .valueError

/-- Embeds `MpcSpheDec.get_allowed_switch_positions` (mpc_sphe_dec.py 292-319):
`nl == 2` gives `[-1, 1]` regardless of the previous value; `nl == 3`
dispatches on the previous per-phase value with an `if/elif` chain over
`-1`, `0`, `1`; any other previous value (or any other `nl`) leaves the
local `res` unassigned and `return res` raises `UnboundLocalError`. -/
def MpcSpheDec_get_allowed_switch_positions (nl : ℕ) (u_km1 : ℚ) :
    Except PyErr (List ℚ) :=
  if nl = 2 then .ok [-1, 1]
  else if nl = 3 then
    if u_km1 = -1 then .ok [-1, 0]
    else if u_km1 = 0 then .ok [-1, 0, 1]
    else if u_km1 = 1 then .ok [0, 1]
    else .error .unboundLocal
  else .error .unboundLocal

/-- Embeds `Converter.get_allowed_switch_positions` (converter.py 74-101):
same dispatch as the sphere decoder's copy, written with three separate
`if`s over mutually exclusive values (so the same function of the inputs). -/
def Converter_get_allowed_switch_positions (nl : ℕ) (u_km1 : ℚ) :
    Except PyErr (List ℚ) :=
  if nl = 2 then .ok [-1, 1]
  else if nl = 3 then
    if u_km1 = -1 then .ok [-1, 0]
    else if u_km1 = 0 then .ok [-1, 0, 1]
    else if u_km1 = 1 then .ok [0, 1]
    else .error .unboundLocal
  else .error .unboundLocal

/-- The truth value of the switching-constraint predicate for a valid level
count (`nl ∈ {2, 3}`): never violated for two-level converters, violated
for three-level converters exactly when some phase jumps by 2 or more.
This is the truthiness of `MpcEnum.switching_constraint_violated` and of
`Converter.switching_constraint_violated` on valid `nl` (proved below),
and is the predicate `MpcEnum.solve` branches on. -/
def violatesB (nl : ℕ) (u p : Vec) : Bool :=
  if nl = 3 then decide (2 ≤ linf (vsub u p)) else false

/-! ## Controller objects and switch-combination construction -/

/-- The controller object as the solvers see it (`ctr` in the solver
signatures).  The fields are the attributes the solvers read:
`Np`, `lambda_u`, `C`, the `get_next_state(sys, xk, uk, k)` method
(the `sys` argument is closed over), and the previous-switch attributes.
A Python attribute that a given controller class never assigns is `none`,
so reading it through `pygetattr` raises `AttributeError`, exactly as
reading a missing attribute does in Python. -/
structure Ctr where
  Np : ℕ
  lambda_u : ℚ
  C : Mat
  get_next_state : Vec → Vec → ℕ → Vec
  u_km1 : Option Vec
  u_km1_abc : Option Vec

/-- The controller instance built by `RLGridMpcCurrCtr.__init__`
(rl_grid_mpc_curr_ctr.py lines 50-67): it assigns `u_km1_abc = [0, 0, 0]`
and `C = [[1, 0], [0, 1]]`, and never assigns any attribute named
`u_km1`.  The dynamics method (`get_next_state`, lines 122-152, which
depends on the state-space matrices and grid voltage stored later) is
abstracted as the parameter `next`; only the attribute layout matters for
the claims about this class. -/
def RLGridMpcCurrCtr_init (lambda_u : ℚ) (Np : ℕ)
    (next : Vec → Vec → ℕ → Vec) : Ctr where
  Np := Np
  lambda_u := lambda_u
  C := [[1, 0], [0, 1]]
  get_next_state := next
  u_km1 := none
  u_km1_abc := some [0, 0, 0]

/-- The per-phase switch alphabet `sw_pos_3ph` assigned by the solver and
converter `__init__` bodies: `[-1, 1]` for `nl == 2`, `[-1, 0, 1]` for
`nl == 3`, unassigned otherwise. -/
def sw_pos_3ph (nl : ℕ) : Option (List ℚ) :=
  if nl = 2 then some [-1, 1] else if nl = 3 then some [-1, 0, 1] else none

/-- `np.array(list(product(sw_pos_3ph, repeat=3)))`: all three-phase switch
positions, in `itertools.product` order (first phase slowest). -/
def prod3 (ps : List ℚ) : List Vec :=
  ps.flatMap fun a => ps.flatMap fun b => ps.map fun c => [a, b, c]

/-- Embeds `MpcEnum.__init__` (mpc_enum.py 23-43): builds `SW_COMB` from
the per-phase alphabet; for `nl` outside `{2, 3}` the local `sw_pos_3ph`
is never assigned and its use raises `UnboundLocalError`. -/
def MpcEnum_init (nl : ℕ) : Except PyErr (List Vec) :=
  match sw_pos_3ph nl with
  | some ps => .ok (prod3 ps)
  | none => .error .unboundLocal

/-- Embeds `MpcBnB.__init__` (mpc_bnb.py 29-41), whose `SW_COMB`
construction is the same code as `MpcEnum.__init__`. -/
def MpcBnB_init (nl : ℕ) : Except PyErr (List Vec) :=
  match sw_pos_3ph nl with
  | some ps => .ok (prod3 ps)
  | none => .error .unboundLocal

/-! ## MpcEnum: the enumeration solver (mpc_enum.py)

`MpcEnum.solve` fills two pre-allocated arrays indexed by leaf number:
`J` (one cost per full switch sequence) and `u_seq` (one flattened
sequence per row), advancing the leaf counter `i` once per full
sequence.  The arrays are embedded as total maps updated functionally;
the recursion on prediction steps is fueled by `Np - k`, which the
source makes strictly decrease. -/

/-- The mutable state of an `MpcEnum` instance during `solve`:
the cost array `J` (row index `→` cost, `np.inf` as `⊤`), the sequence
array `u_seq` (row, column `→` entry) and the leaf counter `i`. -/
structure EnumSt where
  J : ℕ → WithTop ℚ
  u_seq : ℕ → ℕ → ℚ
  i : ℕ

/-- Pointwise array write `J[r0] = v`. -/
def setJ (J : ℕ → WithTop ℚ) (r0 : ℕ) (v : WithTop ℚ) : ℕ → WithTop ℚ :=
  fun r => if r = r0 then v else J r

/-- Range array write `J[lo : lo+n] = v` (the source's
`self.J[u_row_range] = self.J[self.i]`). -/
def setJrange (J : ℕ → WithTop ℚ) (lo n : ℕ) (v : WithTop ℚ) :
    ℕ → WithTop ℚ :=
  fun r => if lo ≤ r ∧ r < lo + n then v else J r

/-- Block array write `u_seq[rlo : rlo+rn, clo : clo+3] = uk` (the
source's assignment of the current three-phase position to the column
range of all rows of the current subtree). -/
def setUblock (useq : ℕ → ℕ → ℚ) (rlo rn clo : ℕ) (uk : Vec) :
    ℕ → ℕ → ℚ :=
  fun r c =>
    if rlo ≤ r ∧ r < rlo + rn ∧ clo ≤ c ∧ c < clo + 3 then uk.getD (c - clo) 0
    else useq r c

/-- Embeds the `for uk in self.SW_COMB:` loop body of `MpcEnum.solve`
(mpc_enum.py 106-138).  `rec` is the recursive call to `solve` one
prediction step deeper.  Each iteration:
* if the switching constraint is violated or the current cost is already
  infinite, sets `J[i] = inf` and keeps the current state for the next
  step; otherwise advances the state and adds the reference-tracking and
  control-effort terms to `J[i]`;
* below the last step, copies the chosen position into the columns
  `3k..3k+3` of all rows of the current subtree, copies `J[i]` to those
  rows, and recurses; at the last step stores the position in row `i`
  and increments the leaf counter. -/
def enumStep (nl : ℕ) (ctr : Ctr) (yref : ℕ → Vec)
    (rec : Vec → Vec → ℕ → EnumSt → EnumSt) (xk u_km1 : Vec) (k : ℕ)
    (uk : Vec) (st : EnumSt) : EnumSt :=
  let stepped :=
    if violatesB nl uk u_km1 = true ∨ st.J st.i = ⊤ then
      (xk, { st with J := setJ st.J st.i ⊤ })
    else
      let x_kp1 := ctr.get_next_state xk uk k
      let ref_error := normSq (vsub (yref k) (matVec ctr.C x_kp1))
      let delta_u := ctr.lambda_u * norm1 (vsub uk u_km1)
      (x_kp1,
        { st with
          J := setJ st.J st.i (st.J st.i + (↑(ref_error + delta_u) : WithTop ℚ)) })
  let x_kp1 := stepped.1
  let st1 := stepped.2
  if k < ctr.Np - 1 then
    let n := nl ^ (3 * (ctr.Np - k - 1))
    rec x_kp1 uk (k + 1)
      { st1 with
        u_seq := setUblock st1.u_seq st1.i n (3 * k) uk
        J := setJrange st1.J st1.i n (st1.J st1.i) }
  else
    { st1 with u_seq := setUblock st1.u_seq st1.i 1 (3 * k) uk, i := st1.i + 1 }

def enumLoop (nl : ℕ) (ctr : Ctr) (yref : ℕ → Vec)
    (rec : Vec → Vec → ℕ → EnumSt → EnumSt) (xk u_km1 : Vec) (k : ℕ) :
    List Vec → EnumSt → EnumSt
  | [], st => st
  | uk :: rest, st =>
    enumLoop nl ctr yref rec xk u_km1 k rest
      (enumStep nl ctr yref rec xk u_km1 k uk st)

/-- Embeds `MpcEnum.solve` (mpc_enum.py 79-138).  The recursion is fueled
by `Np - k` (the source recurses only while `k < Np - 1`). -/
def MpcEnum_solve (sw : List Vec) (nl : ℕ) (ctr : Ctr) (yref : ℕ → Vec) :
    ℕ → Vec → Vec → ℕ → EnumSt → EnumSt
  | 0, _, _, _, st => st
  | fuel + 1, xk, u_km1, k, st =>
    enumLoop nl ctr yref (MpcEnum_solve sw nl ctr yref fuel) xk u_km1 k sw st

/-- The freshly initialized arrays of `MpcEnum.__call__` (lines 67-70):
`J = np.zeros(...)`, `u_seq = np.zeros(...)`, `i = 0`. -/
def enumSt0 : EnumSt where
  J := fun _ => ((0 : ℚ) : WithTop ℚ)
  u_seq := fun _ _ => 0
  i := 0

/-- `np.argmin` over the first `N` entries of `J`: the least index of the
minimum (the fold keeps the incumbent on ties, so the first occurrence
wins, as `np.argmin` specifies). -/
def argminFn (J : ℕ → WithTop ℚ) (N : ℕ) : ℕ :=
  (List.range N).foldl (fun best r => if J r < J best then r else best) 0

/-- `MpcEnum.solve` as invoked by `__call__`, on freshly zeroed arrays
with the previous position passed explicitly. -/
def MpcEnum_run (sw : List Vec) (nl : ℕ) (ctr : Ctr) (yref : ℕ → Vec)
    (x u_km1 : Vec) : EnumSt :=
  MpcEnum_solve sw nl ctr yref ctr.Np x u_km1 0 enumSt0

/-- Embeds `MpcEnum.__call__` (mpc_enum.py 45-77): zeroes the arrays,
reads the previous position from the controller attribute `u_km1`
(line 72 — an `AttributeError` if the controller never assigned it),
runs `solve`, and returns `u_seq[np.argmin(J), 0:3]`. -/
def MpcEnum_call (sw : List Vec) (nl : ℕ) (ctr : Ctr) (yref : ℕ → Vec)
    (x : Vec) : Except PyErr Vec := do
  let u_km1 ← pygetattr ctr.u_km1
  let st := MpcEnum_run sw nl ctr yref x u_km1
  let mi := argminFn st.J (nl ^ (3 * ctr.Np))
  pure [st.u_seq mi 0, st.u_seq mi 1, st.u_seq mi 2]

/-! ## Reference semantics of the enumeration arrays

`seqs sw d` lists every switch sequence of `d` steps in the exact
enumeration order of the nested `for` loops; `pureJ` is the cost the
filled `J` array holds for one sequence, with the `⊤`-latching of the
source (`J[i] == inf` propagates to every descendant). -/

/-- All switch sequences of `d` steps over the candidate list `sw`, in
the solver's enumeration order (step 0 most significant). -/
def seqs (sw : List Vec) : ℕ → List (List Vec)
  | 0 => [[]]
  | d + 1 => sw.flatMap fun u => (seqs sw d).map fun s => u :: s

/-- The per-step cost of the spec's CostModel (§4.2 with `Q` the
identity): squared tracking error of the predicted output plus the
`lambda_u`-weighted 1-norm switching effort. -/
def stepCost (Cm : Mat) (lam : ℚ) (r x' u p : Vec) : ℚ :=
  normSq (vsub r (matVec Cm x')) + lam * norm1 (vsub u p)

/-- The cost `MpcEnum.solve` assigns to one full sequence: `⊤` as soon as
any transition violates the switching constraint, otherwise the sum of
the per-step costs, charging the state predicted at step `k+1` against
the reference sample `y_ref[k]`. -/
def pureJ (nl : ℕ) (ctr : Ctr) (yref : ℕ → Vec) :
    Vec → Vec → ℕ → List Vec → WithTop ℚ
  | _, _, _, [] => ((0 : ℚ) : WithTop ℚ)
  | x, p, k, u :: rest =>
    if violatesB nl u p then ⊤
    else
      let x' := ctr.get_next_state x u k
      (↑(stepCost ctr.C ctr.lambda_u (yref k) x' u p) : WithTop ℚ) +
        pureJ nl ctr yref x' u (k + 1) rest

/-- Whether a sequence contains a transition violating the switching
constraint (the chain starts at the previously applied position `p`). -/
def hasIllegal (nl : ℕ) : Vec → List Vec → Bool
  | _, [] => false
  | p, u :: rest => violatesB nl u p || hasIllegal nl u rest

/-- What one call `solve(sys, conv, ctr, x, y_ref, p, k)` does to the
arrays, given that the whole subtree block currently holds the constant
accumulated cost `c`: it advances the leaf counter over the block of
`nl^(3*(Np-k))` rows, leaves everything outside the block unchanged,
writes into row `i+m` the cost `c + pureJ(..)` of the `m`-th remaining
sub-sequence, and writes that sub-sequence into columns `3k..3Np` of its
row. -/
def EnumSpec (sw : List Vec) (nl : ℕ) (ctr : Ctr) (yref : ℕ → Vec)
    (x p : Vec) (k : ℕ) (c : WithTop ℚ) (st st' : EnumSt) : Prop :=
  st'.i = st.i + nl ^ (3 * (ctr.Np - k)) ∧
  (∀ r, r < st.i → st'.J r = st.J r) ∧
  (∀ r, st.i + nl ^ (3 * (ctr.Np - k)) ≤ r → st'.J r = st.J r) ∧
  (∀ m, m < nl ^ (3 * (ctr.Np - k)) →
    st'.J (st.i + m) =
      c + pureJ nl ctr yref x p k ((seqs sw (ctr.Np - k)).getD m [])) ∧
  (∀ r c', r < st.i → st'.u_seq r c' = st.u_seq r c') ∧
  (∀ r c', st.i + nl ^ (3 * (ctr.Np - k)) ≤ r → st'.u_seq r c' = st.u_seq r c') ∧
  (∀ r c', c' < 3 * k → st'.u_seq r c' = st.u_seq r c') ∧
  (∀ m, m < nl ^ (3 * (ctr.Np - k)) → ∀ c', 3 * k ≤ c' → c' < 3 * ctr.Np →
    st'.u_seq (st.i + m) c' =
      (((seqs sw (ctr.Np - k)).getD m []).flatten).getD (c' - 3 * k) 0)

/-! ## MpcBnB: the branch-and-bound solver (mpc_bnb.py)

`MpcBnB.solve` keeps the incumbent cost `J_min` (initially `np.inf`),
the incumbent sequence `U_seq` and the working sequence `U_temp`, and
calls the shared `switching_constraint_violated` of solvers/utils.py —
the one whose `nl == 3` branch evaluates the undefined name `uk_abc`. -/

/-- The mutable state of an `MpcBnB` instance during `solve`. -/
structure BnbSt where
  J_min : WithTop ℚ
  U_seq : ℕ → ℚ
  U_temp : ℕ → ℚ

/-- Block array write `U[3*ell : 3*(ell+1)] = u` (the source's
`self.U_temp[3 * ell:3 * (ell + 1)] = u_ell_abc`). -/
def setBlock (f : ℕ → ℚ) (lo : ℕ) (u : Vec) : ℕ → ℚ :=
  fun c => if lo ≤ c ∧ c < lo + 3 then u.getD (c - lo) 0 else f c

/-- The candidate cost of mpc_bnb.py lines 112-119: predict the next
state, and charge its output against the reference sample `y_ref[ell+1]`
plus the `lambda_u`-weighted switching effort, on top of the cost
accumulated so far. -/
def bnbJtemp (ctr : Ctr) (yref : ℕ → Vec) (J_prev : ℚ) (x_ell u_ell_abc u_prev : Vec)
    (ell : ℕ) : ℚ :=
  let x_ell_next := ctr.get_next_state x_ell u_ell_abc ell
  let y_ell_next := matVec ctr.C x_ell_next
  let y_error := normSq (vsub (yref (ell + 1)) y_ell_next)
  let delta_u := norm1 (vsub u_ell_abc u_prev)
  J_prev + y_error + ctr.lambda_u * delta_u

/-- Embeds the `for u_ell_abc in self.SW_COMB:` loop body of
`MpcBnB.solve` (mpc_bnb.py 105-134): skip candidates violating the
switching constraint (the constraint check itself can raise); for the
rest, if the accumulated candidate cost beats the incumbent, either
recurse one step deeper or, at the last step, commit the working
sequence as the new incumbent. -/
def bnbLoop (nl : ℕ) (ctr : Ctr) (yref : ℕ → Vec)
    (rec : Vec → Vec → ℕ → ℚ → BnbSt → Except PyErr BnbSt)
    (x_ell : Vec) (u_prev : Vec) (ell : ℕ) (J_prev : ℚ) :
    List Vec → BnbSt → Except PyErr BnbSt
  | [], st => .ok st
  | u :: rest, st => do
    let violated ← utils_switching_constraint_violated nl u u_prev
    let st' ←
      if violated then pure st
      else
        let J_temp := bnbJtemp ctr yref J_prev x_ell u u_prev ell
        if (J_temp : WithTop ℚ) < st.J_min then
          if ell < ctr.Np - 1 then
            rec (ctr.get_next_state x_ell u ell) u (ell + 1) J_temp
              { st with U_temp := setBlock st.U_temp (3 * ell) u }
          else
            pure { st with
              U_temp := setBlock st.U_temp (3 * ell) u
              U_seq := setBlock st.U_temp (3 * ell) u
              J_min := (J_temp : WithTop ℚ) }
        else pure st
    bnbLoop nl ctr yref rec x_ell u_prev ell J_prev rest st'

/-- Embeds `MpcBnB.solve` (mpc_bnb.py 73-134), fueled by `Np - ell`. -/
def MpcBnB_solve (sw : List Vec) (nl : ℕ) (ctr : Ctr) (yref : ℕ → Vec) :
    ℕ → Vec → Vec → ℕ → ℚ → BnbSt → Except PyErr BnbSt
  | 0, _, _, _, _, st => .ok st
  | fuel + 1, x_ell, u_prev, ell, J_prev, st =>
    bnbLoop nl ctr yref (MpcBnB_solve sw nl ctr yref fuel) x_ell u_prev ell J_prev sw st

/-- The state freshly reset by `MpcBnB.__call__` (lines 64-66):
`J_min = np.inf`, zeroed sequences. -/
def bnbSt0 : BnbSt where
  J_min := ⊤
  U_seq := fun _ => 0
  U_temp := fun _ => 0

/-- `MpcBnB.__call__` up to the state it leaves behind: resets the
incumbent, reads the previous position from the controller attribute
`u_km1_abc` (line 68) and runs `solve` from step 0 with zero accumulated
cost. -/
def MpcBnB_run (sw : List Vec) (nl : ℕ) (ctr : Ctr) (yref : ℕ → Vec)
    (x : Vec) : Except PyErr BnbSt := do
  let u_km1_abc ← pygetattr ctr.u_km1_abc
  MpcBnB_solve sw nl ctr yref ctr.Np x u_km1_abc 0 0 bnbSt0

/-- Embeds `MpcBnB.__call__` (mpc_bnb.py 43-71): returns
`U_seq[0:3]`. -/
def MpcBnB_call (sw : List Vec) (nl : ℕ) (ctr : Ctr) (yref : ℕ → Vec)
    (x : Vec) : Except PyErr Vec := do
  let st ← MpcBnB_run sw nl ctr yref x
  pure [st.U_seq 0, st.U_seq 1, st.U_seq 2]

/-! ## MpcSpheDec: the sphere decoder (mpc_sphe_dec.py)

`MpcSpheDec.sphe_dec` (lines 116-169) performs the depth-first lattice
search.  Its numeric inputs — the whitening matrix `V`, the projected
unconstrained optimum `U_bar_unc` and the initial radius `rho` computed
by `__call__` — enter the recursion as plain parameters, so the search
itself is embedded exactly while the Cholesky-based preprocessing stays
outside the statements.  The sequence arrays `U`, `U_opt` are maps
`ℕ → ℚ` updated in place, as in the source. -/

/-- Pointwise array write `U[i] = u`. -/
def setAt (U : ℕ → ℚ) (i : ℕ) (u : ℚ) : ℕ → ℚ := fun j => if j = i then u else U j

/-- `self.matrices.V[i, :i+1].dot(U[:i+1])` — the partial whitened
component at depth `i`. -/
def rowDot (V : ℕ → ℕ → ℚ) (i : ℕ) (U : ℕ → ℚ) : ℚ :=
  ((List.range (i + 1)).map fun j => V i j * U j).sum

/-- Embeds the `for u in self.get_allowed_switch_positions(conv, u_old):`
loop of `sphe_dec` (mpc_sphe_dec.py 156-167): write the candidate into
`U[i]`, compute the partial squared distance `d`, and descend only while
`d <= rho`; a full-depth leaf becomes the new champion with radius `d`. -/
def spheLoop (Np : ℕ) (V : ℕ → ℕ → ℚ) (U_bar_unc : ℕ → ℚ)
    (rec : (ℕ → ℚ) → (ℕ → ℚ) → ℚ → ℕ → ℚ → Except PyErr ((ℕ → ℚ) × (ℕ → ℚ) × ℚ))
    (i : ℕ) (dist : ℚ) :
    List ℚ → (ℕ → ℚ) → (ℕ → ℚ) → ℚ → Except PyErr ((ℕ → ℚ) × (ℕ → ℚ) × ℚ)
  | [], U, U_opt, rho => .ok (U, U_opt, rho)
  | u :: rest, U, U_opt, rho => do
    let U1 := setAt U i u
    let d := (U_bar_unc i - rowDot V i U1) ^ 2 + dist
    let next ←
      if d ≤ rho then
        if i < 3 * Np - 1 then rec U1 U_opt d (i + 1) rho
        else pure (U1, U1, d)
      else pure (U1, U_opt, rho)
    spheLoop Np V U_bar_unc rec i dist rest next.1 next.2.1 next.2.2

/-- Embeds `MpcSpheDec.sphe_dec` (mpc_sphe_dec.py 116-169), fueled by
`3*Np - i`: pick the per-phase predecessor (`u_km1[i]` for the first
three indices, `U[i-3]` afterwards), fetch the admissible values, and
loop over them. -/
def MpcSpheDec_sphe_dec (nl Np : ℕ) (V : ℕ → ℕ → ℚ) (U_bar_unc u_km1 : ℕ → ℚ) :
    ℕ → (ℕ → ℚ) → (ℕ → ℚ) → ℚ → ℕ → ℚ → Except PyErr ((ℕ → ℚ) × (ℕ → ℚ) × ℚ)
  | 0, U, U_opt, _, _, rho => .ok (U, U_opt, rho)
  | fuel + 1, U, U_opt, dist, i, rho => do
    let u_old := if i < 3 then u_km1 i else U (i - 3)
    let allowed ← MpcSpheDec_get_allowed_switch_positions nl u_old
    spheLoop Np V U_bar_unc (MpcSpheDec_sphe_dec nl Np V U_bar_unc u_km1 fuel)
      i dist allowed U U_opt rho

/-! ## IndirectMpcQP: the quadratic-program solver (mpc_QP.py) -/

/-- Embeds the call `make_QP_matrices(sys, conv, ctr)` at mpc_QP.py
line 56.  The function `utils.make_QP_matrices` (utils.py line 57) has
the two parameters `(sys, ctr)`, so this three-argument call raises
`TypeError` before the function body runs.  A namespace of QP matrices
is therefore never constructed anywhere in the source, and `Unit`
stands in for its type. -/
def make_QP_matrices_three_args : Except PyErr Unit := .error .typeError

/-- Embeds `IndirectMpcQP.__init__` (mpc_QP.py 31-32): the single
attribute `QP_matrices` starts as `None`.  No other statement of the
source ever rebinds it — the only assignment, line 56, raises before
its right-hand side produces a value. -/
def IndirectMpcQP_init : Option Unit := none

/-- Embeds `IndirectMpcQP.__call__` (mpc_QP.py 34-96) at the level of
its control flow, with the object's `QP_matrices` attribute and the
backend's verdict as parameters.  Line 55 tests `QP_matrices is None`;
in the `None` case line 56 evaluates `make_QP_matrices(sys, conv, ctr)`,
which raises `TypeError` (three arguments to a two-parameter function).
Only with matrices already present does control reach line 63's read of
the controller attribute `u_km1_abc` (`AttributeError` if missing) and
the remaining pure assembly of `Theta`, `d` and `b_QP` (lines 66-91),
after which line 94's backend verdict enters as `solve_qp_result`:
`qpsolvers.solve_qp` returns `None` on infeasibility or numerical
failure, and the source does not inspect the result — line 96 executes
`U_tilde[0:3]`, which on `None` raises `TypeError`, and on a solution
returns the first-step modulating signal. -/
def IndirectMpcQP_call (QP_matrices : Option Unit) (ctr : Ctr)
    (solve_qp_result : Option Vec) : Except PyErr Vec := do
  let _m ← match QP_matrices with
    | none => make_QP_matrices_three_args
    | some m => .ok m
  let _u_km1 ← pygetattr ctr.u_km1_abc
  match solve_qp_result with
  | none => .error .typeError
  | some U_tilde => .ok (U_tilde.take 3)

/-! ## The per-step cost and total-cost characterizations -/

/-- Sum of the per-step costs of a switch sequence, with the reference
sample for the state predicted at step `k+1` taken at index `k + shift`:
`shift = 0` is the pairing of `MpcEnum.solve`, `shift = 1` that of
`MpcBnB.solve`. -/
def horizonSum (ctr : Ctr) (yref : ℕ → Vec) (shift : ℕ) :
    Vec → Vec → ℕ → List Vec → ℚ
  | _, _, _, [] => 0
  | x, p, k, u :: rest =>
    stepCost ctr.C ctr.lambda_u (yref (k + shift)) (ctr.get_next_state x u k) u p +
      horizonSum ctr yref shift (ctr.get_next_state x u k) u (k + 1) rest

/-- The cost `MpcBnB.solve` has accumulated after walking a
constraint-respecting path (the `J_temp` recurrence of lines 113-128
composed along the path). -/
def bnbPathJ (ctr : Ctr) (yref : ℕ → Vec) : ℚ → Vec → Vec → ℕ → List Vec → ℚ
  | J_prev, _, _, _, [] => J_prev
  | J_prev, x, p, ell, u :: rest =>
    bnbPathJ ctr yref (bnbJtemp ctr yref J_prev x u p ell)
      (ctr.get_next_state x u ell) u (ell + 1) rest

/-- The state, last applied position and step index after a sequence has
been applied. -/
def seqEnd (ctr : Ctr) : Vec → Vec → ℕ → List Vec → Vec × Vec × ℕ
  | x, p, k, [] => (x, p, k)
  | x, _p, k, u :: rest => seqEnd ctr (ctr.get_next_state x u k) u (k + 1) rest

/-! ## Concrete worked instances

A one-step controller whose dynamics copy the applied position into the
state, with the output selecting the first two entries; the reference
jumps from `[0, 0]` at index 0 to `[10, 10]` afterwards, which separates
the two reference pairings. -/

/-- Concrete demonstration controller: `Np = 1`, `lambda_u = 0`,
`C = [[1,0,0],[0,1,0]]`, dynamics `x_next = u`, previous position
`[-1, -1, -1]` stored under both attribute names. -/
def ctrDemo : Ctr where
  Np := 1
  lambda_u := 0
  C := [[1, 0, 0], [0, 1, 0]]
  get_next_state := fun _ u _ => u
  u_km1 := some [-1, -1, -1]
  u_km1_abc := some [-1, -1, -1]

/-- Demonstration reference horizon: `y_ref[0] = [0, 0]`,
`y_ref[k] = [10, 10]` for `k ≥ 1`. -/
def yrefDemo : ℕ → Vec := fun k => if k = 0 then [0, 0] else [10, 10]

/-- Demonstration constant reference horizon. -/
def yrefConst : ℕ → Vec := fun _ => [1, 0]

/-- Demonstration current state (ignored by `ctrDemo`'s dynamics). -/
def xDemo : Vec := [0, 0, 0]

/-- The champion the sphere decoder produces on a small concrete
three-level instance (extracted totally for the witness statement). -/
def spheResDemo : (ℕ → ℚ) × (ℕ → ℚ) × ℚ :=
  match MpcSpheDec_sphe_dec 3 1 (fun _ _ => 0) (fun _ => 0) (fun _ => 0) 3
      (fun _ => 0) (fun _ => 0) 0 0 (-1) with
  | .ok r => r
  | .error _ => (fun _ => 9, fun _ => 9, 9)

lemma qabs_eq_abs (q : ℚ) : qabs q = |q| := by
  unfold qabs
  by_cases h : q < 0
  · rw [if_pos h, abs_of_neg h]
  · rw [if_neg h, abs_of_nonneg (not_lt.mp h)]

lemma qmax_eq_max (a b : ℚ) : qmax a b = max a b := (max_def a b).symm

/-- On valid level counts, `violatesB` is exactly the truthiness of the
embedded `MpcEnum.switching_constraint_violated`. -/
lemma enum_scv_truthy (nl : ℕ) (hnl : nl = 2 ∨ nl = 3) (u p : Vec) :
    (MpcEnum_switching_constraint_violated nl u p).map PyTruth.truthy =
      .ok (violatesB nl u p) := by
  rcases hnl with h | h <;> subst h <;>
    simp [MpcEnum_switching_constraint_violated, violatesB, Except.map,
      PyTruth.truthy]

/-- On valid level counts, `violatesB` is exactly the truthiness of the
embedded `Converter.switching_constraint_violated`. -/
lemma conv_scv_truthy (nl : ℕ) (hnl : nl = 2 ∨ nl = 3) (u p : Vec) :
    (Converter_switching_constraint_violated nl u p).map PyTruth.truthy =
      .ok (violatesB nl u p) := by
  rcases hnl with h | h <;> subst h <;>
    simp [Converter_switching_constraint_violated, violatesB, Except.map,
      PyTruth.truthy]

lemma MpcEnum_init_two : MpcEnum_init 2 = .ok (prod3 [-1, 1]) := rfl

lemma MpcEnum_init_three : MpcEnum_init 3 = .ok (prod3 [-1, 0, 1]) := rfl

/-- A valid `SW_COMB` has `nl ^ 3` entries. -/
lemma sw_comb_length {nl : ℕ} {sw : List Vec} (h : MpcEnum_init nl = .ok sw) :
    sw.length = nl ^ 3 := by
  unfold MpcEnum_init sw_pos_3ph at h
  by_cases h2 : nl = 2
  · subst h2; simp at h; subst h; decide
  · by_cases h3 : nl = 3
    · subst h3; simp [h2] at h; subst h; decide
    · simp [h2, h3] at h

/-- Every entry of a valid `SW_COMB` is a three-phase vector. -/
lemma sw_comb_mem_length {nl : ℕ} {sw : List Vec}
    (h : MpcEnum_init nl = .ok sw) : ∀ u ∈ sw, u.length = 3 := by
  unfold MpcEnum_init sw_pos_3ph at h
  by_cases h2 : nl = 2
  · subst h2; simp at h; subst h; decide
  · by_cases h3 : nl = 3
    · subst h3; simp [h2] at h; subst h; decide
    · simp [h2, h3] at h

/-- A valid `MpcEnum_init` result forces `nl ∈ {2, 3}`. -/
lemma init_nl {nl : ℕ} {sw : List Vec} (h : MpcEnum_init nl = .ok sw) :
    nl = 2 ∨ nl = 3 := by
  unfold MpcEnum_init sw_pos_3ph at h
  by_cases h2 : nl = 2
  · exact Or.inl h2
  · by_cases h3 : nl = 3
    · exact Or.inr h3
    · simp [h2, h3] at h

/-- A sequence gets cost `⊤` exactly when it contains an illegal
transition. -/
lemma pureJ_eq_top_iff (nl : ℕ) (ctr : Ctr) (yref : ℕ → Vec) :
    ∀ (s : List Vec) (x p : Vec) (k : ℕ),
      pureJ nl ctr yref x p k s = ⊤ ↔ hasIllegal nl p s = true := by
  intro s
  induction s with
  | nil => intro x p k; simp [pureJ, hasIllegal]
  | cons u rest ih =>
    intro x p k
    by_cases hv : violatesB nl u p
    · simp [pureJ, hasIllegal, hv]
    · simp [pureJ, hasIllegal, hv, WithTop.add_eq_top]
      exact ih _ _ _

lemma seqs_length (sw : List Vec) : ∀ d, (seqs sw d).length = sw.length ^ d := by
  intro d
  induction d with
  | zero => simp [seqs]
  | succ d ih =>
    simp only [seqs, List.length_flatMap, Function.comp_def, List.length_map]
    rw [show (sw.map fun _ => (seqs sw d).length) = sw.map fun _ => sw.length ^ d by
      apply List.map_congr_left; intro u _; rw [ih]]
    rw [List.map_const', List.sum_replicate, smul_eq_mul, pow_succ]
    ring

/-- Splitting the accumulated cost across the first transition, with the
`⊤`-latching of the source: the branch value written into `J[i]`
(`⊤` if the transition is illegal or the inherited cost is already `⊤`,
otherwise the inherited cost plus the step cost) plus the cost of the
rest of the sequence — computed from the frozen state when the branch
was cut — equals the inherited cost plus the cost of the full sequence. -/
lemma pureJ_cons (nl : ℕ) (ctr : Ctr) (yref : ℕ → Vec) (c : WithTop ℚ)
    (x p uk : Vec) (k : ℕ) (s : List Vec) :
    c + pureJ nl ctr yref x p k (uk :: s) =
      (if violatesB nl uk p = true ∨ c = ⊤ then (⊤ : WithTop ℚ)
       else c + ↑(stepCost ctr.C ctr.lambda_u (yref k)
          (ctr.get_next_state x uk k) uk p)) +
      pureJ nl ctr yref
        (if violatesB nl uk p = true ∨ c = ⊤ then x else ctr.get_next_state x uk k)
        uk (k + 1) s := by
  by_cases hv : violatesB nl uk p = true
  · simp [pureJ, hv]
  · by_cases hc : c = ⊤
    · simp [pureJ, hv, hc]
    · rw [if_neg (by simp [hv, hc]), if_neg (by simp [hv, hc])]
      show c + pureJ nl ctr yref x p k (uk :: s) = _
      rw [show pureJ nl ctr yref x p k (uk :: s) =
          (↑(stepCost ctr.C ctr.lambda_u (yref k) (ctr.get_next_state x uk k) uk p) : WithTop ℚ) +
            pureJ nl ctr yref (ctr.get_next_state x uk k) uk (k + 1) s by
        simp [pureJ, hv]]
      rw [← add_assoc]

lemma getD_map_cons (l : List (List Vec)) (u : Vec) (m : ℕ) (hm : m < l.length) :
    ((l.map fun s => u :: s).getD m []) = u :: l.getD m [] := by
  rw [List.getD_eq_getElem?_getD, List.getD_eq_getElem?_getD, List.getElem?_map,
    List.getElem?_eq_getElem hm]
  simp

/-- Processing one candidate at a node transforms the arrays on exactly the
candidate's sub-block of `nl^(3*(Np-k-1))` rows. -/
lemma enumStep_spec (sw : List Vec) (nl : ℕ) (ctr : Ctr) (yref : ℕ → Vec)
    (hnl : 1 ≤ nl) (_hsw : sw.length = nl ^ 3)
    (k : ℕ) (hk : k < ctr.Np)
    (rec : Vec → Vec → ℕ → EnumSt → EnumSt)
    (Hrec : k + 1 < ctr.Np → ∀ x p st c,
      (∀ r, st.i ≤ r → r < st.i + nl ^ (3 * (ctr.Np - (k + 1))) → st.J r = c) →
      EnumSpec sw nl ctr yref x p (k + 1) c st (rec x p (k + 1) st))
    (uk : Vec) (huk : uk.length = 3)
    (xk p : Vec) (st : EnumSt) (c : WithTop ℚ) (hJi : st.J st.i = c) :
    (enumStep nl ctr yref rec xk p k uk st).i = st.i + nl ^ (3 * (ctr.Np - k - 1)) ∧
    (∀ r, r < st.i → (enumStep nl ctr yref rec xk p k uk st).J r = st.J r) ∧
    (∀ r, st.i + nl ^ (3 * (ctr.Np - k - 1)) ≤ r →
      (enumStep nl ctr yref rec xk p k uk st).J r = st.J r) ∧
    (∀ m, m < nl ^ (3 * (ctr.Np - k - 1)) →
      (enumStep nl ctr yref rec xk p k uk st).J (st.i + m) =
        c + pureJ nl ctr yref xk p k
          (uk :: (seqs sw (ctr.Np - k - 1)).getD m [])) ∧
    (∀ r c', r < st.i → (enumStep nl ctr yref rec xk p k uk st).u_seq r c' = st.u_seq r c') ∧
    (∀ r c', st.i + nl ^ (3 * (ctr.Np - k - 1)) ≤ r →
      (enumStep nl ctr yref rec xk p k uk st).u_seq r c' = st.u_seq r c') ∧
    (∀ r c', c' < 3 * k → (enumStep nl ctr yref rec xk p k uk st).u_seq r c' = st.u_seq r c') ∧
    (∀ m, m < nl ^ (3 * (ctr.Np - k - 1)) → ∀ c', 3 * k ≤ c' → c' < 3 * ctr.Np →
      (enumStep nl ctr yref rec xk p k uk st).u_seq (st.i + m) c' =
        ((uk :: (seqs sw (ctr.Np - k - 1)).getD m []).flatten).getD (c' - 3 * k) 0) := by
  have hBpos : 0 < nl ^ (3 * (ctr.Np - k - 1)) := pow_pos (by omega) _
  have key : ∃ v xK, enumStep nl ctr yref rec xk p k uk st =
      (if k < ctr.Np - 1 then
        rec xK uk (k + 1)
          { J := setJrange (setJ st.J st.i v) st.i (nl ^ (3 * (ctr.Np - k - 1))) v
            u_seq := setUblock st.u_seq st.i (nl ^ (3 * (ctr.Np - k - 1))) (3 * k) uk
            i := st.i }
      else
        { J := setJ st.J st.i v
          u_seq := setUblock st.u_seq st.i 1 (3 * k) uk
          i := st.i + 1 }) ∧
      ∀ s, c + pureJ nl ctr yref xk p k (uk :: s) =
        v + pureJ nl ctr yref xK uk (k + 1) s := by
    by_cases hbad : violatesB nl uk p = true ∨ st.J st.i = ⊤
    · have hbad' : violatesB nl uk p = true ∨ c = ⊤ := by rw [← hJi]; exact hbad
      refine ⟨⊤, xk, ?_, ?_⟩
      · simp only [enumStep, if_pos hbad, setJ]
        try simp
      · intro s
        rw [pureJ_cons nl ctr yref c xk p uk k s, if_pos hbad', if_pos hbad']
    · have hbad' : ¬(violatesB nl uk p = true ∨ c = ⊤) := by rw [← hJi]; exact hbad
      refine ⟨st.J st.i + (↑(normSq (vsub (yref k)
          (matVec ctr.C (ctr.get_next_state xk uk k))) +
          ctr.lambda_u * norm1 (vsub uk p)) : WithTop ℚ),
        ctr.get_next_state xk uk k, ?_, ?_⟩
      · simp only [enumStep, if_neg hbad, setJ]
        try simp
      · intro s
        rw [pureJ_cons nl ctr yref c xk p uk k s, if_neg hbad', if_neg hbad', hJi]
        rfl
  obtain ⟨v, xK, hE, hkey⟩ := key
  rw [hE]
  by_cases hkN : k < ctr.Np - 1
  · rw [if_pos hkN]
    have hk1 : k + 1 < ctr.Np := by omega
    have hsub : ctr.Np - (k + 1) = ctr.Np - k - 1 := by omega
    have hblock3 : ∀ r, st.i ≤ r → r < st.i + nl ^ (3 * (ctr.Np - (k + 1))) →
        (setJrange (setJ st.J st.i v) st.i (nl ^ (3 * (ctr.Np - k - 1))) v) r = v := by
      intro r hr1 hr2
      rw [hsub] at hr2
      simp only [setJrange, if_pos (And.intro hr1 hr2)]
    obtain ⟨e1, e2, e3, e4, e5, e6, e7, e8⟩ :=
      Hrec hk1 xK uk
        { J := setJrange (setJ st.J st.i v) st.i (nl ^ (3 * (ctr.Np - k - 1))) v
          u_seq := setUblock st.u_seq st.i (nl ^ (3 * (ctr.Np - k - 1))) (3 * k) uk
          i := st.i } v hblock3
    rw [hsub] at e1 e3 e4 e6 e8
    dsimp only at e1 e2 e3 e4 e5 e6 e7 e8
    refine ⟨e1, ?_, ?_, ?_, ?_, ?_, ?_, ?_⟩
    · intro r hr
      rw [e2 r hr]
      simp only [setJrange, setJ]
      rw [if_neg (by omega), if_neg (by omega)]
    · intro r hr
      rw [e3 r hr]
      simp only [setJrange, setJ]
      rw [if_neg (by omega), if_neg (by omega)]
    · intro m hm
      rw [e4 m hm, ← hkey]
    · intro r c' hr
      rw [e5 r c' hr]
      simp only [setUblock]
      rw [if_neg (by omega)]
    · intro r c' hr
      rw [e6 r c' hr]
      simp only [setUblock]
      rw [if_neg (by omega)]
    · intro r c' hc
      by_cases hrow : st.i ≤ r ∧ r < st.i + nl ^ (3 * (ctr.Np - k - 1))
      · rw [e7 r c' (by omega)]
        simp only [setUblock]
        rw [if_neg (by omega)]
      · rcases (by omega : r < st.i ∨ st.i + nl ^ (3 * (ctr.Np - k - 1)) ≤ r) with h | h
        · rw [e5 r c' h]
          simp only [setUblock]
          rw [if_neg (by omega)]
        · rw [e6 r c' h]
          simp only [setUblock]
          rw [if_neg (by omega)]
    · intro m hm c' hc1 hc2
      rcases Nat.lt_or_ge c' (3 * k + 3) with hc3 | hc3
      · rw [e7 (st.i + m) c' (by omega)]
        simp only [setUblock]
        rw [if_pos (by omega)]
        rw [List.flatten_cons, List.getD_append _ _ _ _ (by omega)]
      · rw [e8 m hm c' (by omega) hc2]
        rw [List.flatten_cons,
          List.getD_append_right _ _ _ _ (by rw [huk]; omega), huk,
          show c' - 3 * k - 3 = c' - 3 * (k + 1) from by omega]
  · rw [if_neg hkN]
    have hkeq : k = ctr.Np - 1 := by omega
    have hzero : ctr.Np - k - 1 = 0 := by omega
    have hB1 : nl ^ (3 * (ctr.Np - k - 1)) = 1 := by rw [hzero]; norm_num
    refine ⟨?_, ?_, ?_, ?_, ?_, ?_, ?_, ?_⟩
    · dsimp only
      omega
    · intro r hr
      dsimp only
      simp only [setJ]
      rw [if_neg (by omega)]
    · intro r hr
      dsimp only
      simp only [setJ]
      rw [if_neg (by omega)]
    · intro m hm
      have hm0 : m = 0 := by omega
      subst hm0
      dsimp only
      rw [hzero]
      have hseq : ((seqs sw 0).getD 0 []) = ([] : List Vec) := rfl
      rw [hseq, hkey []]
      simp [setJ, pureJ]
    · intro r c' hr
      dsimp only
      simp only [setUblock]
      rw [if_neg (by omega)]
    · intro r c' hr
      dsimp only
      simp only [setUblock]
      rw [if_neg (by omega)]
    · intro r c' hc
      dsimp only
      simp only [setUblock]
      rw [if_neg (by omega)]
    · intro m hm c' hc1 hc2
      have hm0 : m = 0 := by omega
      subst hm0
      dsimp only
      rw [hzero]
      have hseq : ((seqs sw 0).getD 0 []) = ([] : List Vec) := rfl
      rw [hseq]
      simp only [Nat.add_zero, setUblock]
      rw [if_pos (by omega)]
      simp only [List.flatten_cons, List.flatten_nil, List.append_nil]

/-- Running the candidate loop over a list `l` at a node processes
`l.length` adjacent sub-blocks. -/
lemma enumLoop_spec (sw : List Vec) (nl : ℕ) (ctr : Ctr) (yref : ℕ → Vec)
    (hnl : 1 ≤ nl) (hsw : sw.length = nl ^ 3)
    (k : ℕ) (hk : k < ctr.Np)
    (rec : Vec → Vec → ℕ → EnumSt → EnumSt)
    (Hrec : k + 1 < ctr.Np → ∀ x p st c,
      (∀ r, st.i ≤ r → r < st.i + nl ^ (3 * (ctr.Np - (k + 1))) → st.J r = c) →
      EnumSpec sw nl ctr yref x p (k + 1) c st (rec x p (k + 1) st)) :
    ∀ (l : List Vec), (∀ u ∈ l, u.length = 3) →
    ∀ (xk p : Vec) (st : EnumSt) (c : WithTop ℚ),
      (∀ r, st.i ≤ r → r < st.i + l.length * nl ^ (3 * (ctr.Np - k - 1)) → st.J r = c) →
      (enumLoop nl ctr yref rec xk p k l st).i
          = st.i + l.length * nl ^ (3 * (ctr.Np - k - 1)) ∧
      (∀ r, r < st.i → (enumLoop nl ctr yref rec xk p k l st).J r = st.J r) ∧
      (∀ r, st.i + l.length * nl ^ (3 * (ctr.Np - k - 1)) ≤ r →
        (enumLoop nl ctr yref rec xk p k l st).J r = st.J r) ∧
      (∀ m, m < l.length * nl ^ (3 * (ctr.Np - k - 1)) →
        (enumLoop nl ctr yref rec xk p k l st).J (st.i + m)
          = c + pureJ nl ctr yref xk p k
              ((l.flatMap fun u =>
                (seqs sw (ctr.Np - k - 1)).map fun s => u :: s).getD m [])) ∧
      (∀ r c', r < st.i →
        (enumLoop nl ctr yref rec xk p k l st).u_seq r c' = st.u_seq r c') ∧
      (∀ r c', st.i + l.length * nl ^ (3 * (ctr.Np - k - 1)) ≤ r →
        (enumLoop nl ctr yref rec xk p k l st).u_seq r c' = st.u_seq r c') ∧
      (∀ r c', c' < 3 * k →
        (enumLoop nl ctr yref rec xk p k l st).u_seq r c' = st.u_seq r c') ∧
      (∀ m, m < l.length * nl ^ (3 * (ctr.Np - k - 1)) →
        ∀ c', 3 * k ≤ c' → c' < 3 * ctr.Np →
        (enumLoop nl ctr yref rec xk p k l st).u_seq (st.i + m) c'
          = (((l.flatMap fun u =>
              (seqs sw (ctr.Np - k - 1)).map fun s => u :: s).getD m []).flatten).getD
              (c' - 3 * k) 0) := by
  intro l
  induction l with
  | nil =>
    intro _ xk p st c _
    exact ⟨by simp [enumLoop], fun r _ => rfl, fun r _ => rfl,
      fun m hm => absurd hm (by simp), fun r c' _ => rfl, fun r c' _ => rfl,
      fun r c' _ => rfl, fun m hm => absurd hm (by simp)⟩
  | cons uk rest ih =>
    intro hlen xk p st c hblock
    have hBpos : 0 < nl ^ (3 * (ctr.Np - k - 1)) := pow_pos (by omega) _
    have hcons : (uk :: rest).length * nl ^ (3 * (ctr.Np - k - 1))
        = nl ^ (3 * (ctr.Np - k - 1)) + rest.length * nl ^ (3 * (ctr.Np - k - 1)) := by
      simp [List.length_cons, Nat.succ_mul, Nat.add_comm]
    obtain ⟨s1, s2, s3, s4, s5, s6, s7, s8⟩ :=
      enumStep_spec sw nl ctr yref hnl hsw k hk rec Hrec uk
        (hlen uk (by simp)) xk p st c
        (hblock st.i (le_refl _) (by omega))
    set st2 := enumStep nl ctr yref rec xk p k uk st with hst2
    have hblock2 : ∀ r, st2.i ≤ r →
        r < st2.i + rest.length * nl ^ (3 * (ctr.Np - k - 1)) → st2.J r = c := by
      intro r h1 h2
      rw [s1] at h1 h2
      rw [s3 r (by omega)]
      exact hblock r (by omega) (by omega)
    obtain ⟨t1, t2, t3, t4, t5, t6, t7, t8⟩ :=
      ih (fun u hu => hlen u (by simp [hu])) xk p st2 c hblock2
    have hunfold : enumLoop nl ctr yref rec xk p k (uk :: rest) st
        = enumLoop nl ctr yref rec xk p k rest st2 := rfl
    rw [hunfold]
    have hlenS1 : ((seqs sw (ctr.Np - k - 1)).map fun s => uk :: s).length
        = nl ^ (3 * (ctr.Np - k - 1)) := by
      rw [List.length_map, seqs_length, hsw, ← pow_mul]
    have hsplit : ((uk :: rest).flatMap fun u =>
        (seqs sw (ctr.Np - k - 1)).map fun s => u :: s)
        = ((seqs sw (ctr.Np - k - 1)).map fun s => uk :: s)
          ++ (rest.flatMap fun u => (seqs sw (ctr.Np - k - 1)).map fun s => u :: s) :=
      List.flatMap_cons ..
    refine ⟨?_, ?_, ?_, ?_, ?_, ?_, ?_, ?_⟩
    · rw [t1, s1]
      omega
    · intro r hr
      rw [t2 r (by omega), s2 r hr]
    · intro r hr
      rw [t3 r (by omega), s3 r (by omega)]
    · intro m hm
      rcases Nat.lt_or_ge m (nl ^ (3 * (ctr.Np - k - 1))) with hmB | hmB
      · have hrow : st.i + m < st2.i := by omega
        rw [t2 _ hrow, s4 m hmB, hsplit,
          List.getD_append _ _ _ _ (by rw [hlenS1]; exact hmB),
          getD_map_cons _ _ _ (by rw [seqs_length, hsw, ← pow_mul]; exact hmB)]
      · have hrow : st.i + m = st2.i + (m - nl ^ (3 * (ctr.Np - k - 1))) := by omega
        rw [hrow, t4 (m - nl ^ (3 * (ctr.Np - k - 1))) (by omega), hsplit,
          List.getD_append_right _ _ _ _ (by rw [hlenS1]; exact hmB), hlenS1]
    · intro r c' hr
      rw [t5 r c' (by omega), s5 r c' hr]
    · intro r c' hr
      rw [t6 r c' (by omega), s6 r c' (by omega)]
    · intro r c' hc
      rw [t7 r c' hc, s7 r c' hc]
    · intro m hm c' hc1 hc2
      rcases Nat.lt_or_ge m (nl ^ (3 * (ctr.Np - k - 1))) with hmB | hmB
      · have hrow : st.i + m < st2.i := by omega
        rw [t5 _ c' hrow, s8 m hmB c' hc1 hc2, hsplit,
          List.getD_append _ _ _ _ (by rw [hlenS1]; exact hmB),
          getD_map_cons _ _ _ (by rw [seqs_length, hsw, ← pow_mul]; exact hmB)]
      · have hrow : st.i + m = st2.i + (m - nl ^ (3 * (ctr.Np - k - 1))) := by omega
        rw [hrow, t8 (m - nl ^ (3 * (ctr.Np - k - 1))) (by omega) c' hc1 hc2, hsplit,
          List.getD_append_right _ _ _ _ (by rw [hlenS1]; exact hmB), hlenS1]

/-- The main characterization of `MpcEnum.solve`: called at step `k` with
the correct fuel on a state whose subtree block holds the constant
accumulated cost `c`, it realizes `EnumSpec`. -/
lemma MpcEnum_solve_spec (sw : List Vec) (nl : ℕ) (ctr : Ctr) (yref : ℕ → Vec)
    (hnl : 1 ≤ nl) (hsw : sw.length = nl ^ 3) (hsw3 : ∀ u ∈ sw, u.length = 3) :
    ∀ (fuel k : ℕ), fuel = ctr.Np - k → k < ctr.Np →
    ∀ (x p : Vec) (st : EnumSt) (c : WithTop ℚ),
      (∀ r, st.i ≤ r → r < st.i + nl ^ (3 * (ctr.Np - k)) → st.J r = c) →
      EnumSpec sw nl ctr yref x p k c st
        (MpcEnum_solve sw nl ctr yref fuel x p k st) := by
  intro fuel
  induction fuel with
  | zero =>
    intro k hfuel hk x p st c hb
    exact absurd hfuel (by omega)
  | succ fuel ihf =>
    intro k hfuel hk x p st c hb
    have hd : ctr.Np - k = ctr.Np - k - 1 + 1 := by omega
    have hcount : sw.length * nl ^ (3 * (ctr.Np - k - 1)) = nl ^ (3 * (ctr.Np - k)) := by
      rw [hsw, show 3 * (ctr.Np - k) = 3 + 3 * (ctr.Np - k - 1) from by omega, pow_add]
    have hseqsplit : (sw.flatMap fun u => (seqs sw (ctr.Np - k - 1)).map fun s => u :: s)
        = seqs sw (ctr.Np - k) := by
      conv_rhs => rw [hd]
      rw [seqs]
    have hunfold : MpcEnum_solve sw nl ctr yref (fuel + 1) x p k st
        = enumLoop nl ctr yref (MpcEnum_solve sw nl ctr yref fuel) x p k sw st := rfl
    obtain ⟨t1, t2, t3, t4, t5, t6, t7, t8⟩ :=
      enumLoop_spec sw nl ctr yref hnl hsw k hk
        (MpcEnum_solve sw nl ctr yref fuel)
        (fun hk1 x' p' st' c' hb' => ihf (k + 1) (by omega) hk1 x' p' st' c' hb')
        sw hsw3 x p st c
        (by rw [hcount]; exact hb)
    unfold EnumSpec
    rw [hunfold, ← hcount, ← hseqsplit]
    exact ⟨t1, t2, t3, t4, t5, t6, t7, t8⟩

lemma argminFn_succ (J : ℕ → WithTop ℚ) (N : ℕ) :
    argminFn J (N + 1) = if J N < J (argminFn J N) then N else argminFn J N := by
  simp [argminFn, List.range_succ]

/-- `np.argmin` returns an in-range index when the array is nonempty. -/
lemma argminFn_lt (J : ℕ → WithTop ℚ) : ∀ N, 0 < N → argminFn J N < N := by
  intro N
  induction N with
  | zero => intro h; omega
  | succ N ih =>
    intro _
    rw [argminFn_succ]
    by_cases h : J N < J (argminFn J N)
    · rw [if_pos h]; omega
    · rw [if_neg h]
      rcases Nat.eq_zero_or_pos N with h0 | h0
      · subst h0
        simp [argminFn]
      · exact Nat.lt_succ_of_lt (ih h0)

/-- The index `np.argmin` returns attains the minimum. -/
lemma argminFn_min (J : ℕ → WithTop ℚ) : ∀ N r, r < N → J (argminFn J N) ≤ J r := by
  intro N
  induction N with
  | zero => intro r hr; omega
  | succ N ih =>
    intro r hr
    rw [argminFn_succ]
    by_cases h : J N < J (argminFn J N)
    · rw [if_pos h]
      rcases Nat.lt_or_ge r N with hrN | hrN
      · exact le_trans (le_of_lt h) (ih r hrN)
      · have hrN' : r = N := by omega
        subst hrN'
        exact le_refl _
    · rw [if_neg h]
      rcases Nat.lt_or_ge r N with hrN | hrN
      · exact ih r hrN
      · have hrN' : r = N := by omega
        subst hrN'
        exact not_lt.mp h

/-- `np.argmin` breaks ties by the first occurrence: every strictly
smaller index has strictly larger value. -/
lemma argminFn_first (J : ℕ → WithTop ℚ) :
    ∀ N r, r < argminFn J N → J (argminFn J N) < J r := by
  intro N
  induction N with
  | zero =>
    intro r hr
    simp [argminFn] at hr
  | succ N ih =>
    intro r hr
    rw [argminFn_succ] at hr ⊢
    by_cases h : J N < J (argminFn J N)
    · rw [if_pos h] at hr ⊢
      exact lt_of_lt_of_le h (argminFn_min J N r hr)
    · rw [if_neg h] at hr ⊢
      exact ih r hr

/-- The freshly-run enumeration fills every leaf slot of `J` with the
sequence cost, the leaf counter ends at `nl^(3*Np)`, and `u_seq` holds
the sequences themselves. -/
lemma MpcEnum_run_spec (sw : List Vec) (nl : ℕ) (ctr : Ctr) (yref : ℕ → Vec)
    (hinit : MpcEnum_init nl = .ok sw) (hNp : 1 ≤ ctr.Np) (x p : Vec) :
    (MpcEnum_run sw nl ctr yref x p).i = nl ^ (3 * ctr.Np) ∧
    (∀ m, m < nl ^ (3 * ctr.Np) →
      (MpcEnum_run sw nl ctr yref x p).J m
        = pureJ nl ctr yref x p 0 ((seqs sw ctr.Np).getD m [])) ∧
    (∀ m, m < nl ^ (3 * ctr.Np) → ∀ c', c' < 3 * ctr.Np →
      (MpcEnum_run sw nl ctr yref x p).u_seq m c'
        = (((seqs sw ctr.Np).getD m []).flatten).getD c' 0) := by
  have hnl : 1 ≤ nl := by rcases init_nl hinit with h | h <;> omega
  obtain ⟨t1, t2, t3, t4, t5, t6, t7, t8⟩ :=
    MpcEnum_solve_spec sw nl ctr yref hnl (sw_comb_length hinit)
      (sw_comb_mem_length hinit) ctr.Np 0 (by omega) (by omega) x p enumSt0
      ((0 : ℚ) : WithTop ℚ) (fun r _ _ => rfl)
  rw [Nat.sub_zero] at t1 t4 t8
  refine ⟨?_, ?_, ?_⟩
  · rw [MpcEnum_run, t1]
    simp [enumSt0]
  · intro m hm
    have := t4 m hm
    rw [show enumSt0.i + m = m from Nat.zero_add m] at this
    rw [MpcEnum_run, this]
    simp
  · intro m hm c' hc
    have := t8 m hm c' (by omega) hc
    rw [show enumSt0.i + m = m from Nat.zero_add m] at this
    rw [MpcEnum_run, this]
    simp

lemma vec_eq_of_len3 (u : Vec) (h : u.length = 3) :
    [u.getD 0 0, u.getD 1 0, u.getD 2 0] = u := by
  match u, h with
  | [a, b, c], _ => rfl

/-- Every sequence of positive length decomposes as a first position from
the candidate list followed by a shorter sequence. -/
lemma seqs_mem_cons (sw : List Vec) (d : ℕ) (s : List Vec)
    (hs : s ∈ seqs sw (d + 1)) : ∃ u t, s = u :: t ∧ u ∈ sw ∧ t ∈ seqs sw d := by
  simp only [seqs, List.mem_flatMap, List.mem_map] at hs
  obtain ⟨u, hu, t, ht, hst⟩ := hs
  exact ⟨u, t, hst.symm, hu, ht⟩

lemma seqs_getD_mem (sw : List Vec) (d m : ℕ) (hm : m < (seqs sw d).length) :
    (seqs sw d).getD m [] ∈ seqs sw d := by
  rw [List.getD_eq_getElem _ _ hm]
  exact List.getElem_mem hm

lemma replicate_mem_seqs (sw : List Vec) (p : Vec) (hp : p ∈ sw) :
    ∀ d, List.replicate d p ∈ seqs sw d := by
  intro d
  induction d with
  | zero => simp [seqs]
  | succ d ih =>
    simp only [seqs, List.mem_flatMap, List.mem_map, List.replicate_succ]
    exact ⟨p, hp, List.replicate d p, ih, rfl⟩

lemma linf_self_sub (p : Vec) : linf (vsub p p) = 0 := by
  induction p with
  | nil => rfl
  | cons a t ih =>
    have hstep : linf (vsub (a :: t) (a :: t)) = qmax (qabs (a - a)) (linf (vsub t t)) := rfl
    rw [hstep, ih, sub_self]
    norm_num [qabs, qmax]

lemma violatesB_self (nl : ℕ) (p : Vec) : violatesB nl p p = false := by
  by_cases h : nl = 3
  · subst h
    simp [violatesB, linf_self_sub]
  · simp [violatesB, h]

lemma hasIllegal_replicate (nl : ℕ) (p : Vec) :
    ∀ d, hasIllegal nl p (List.replicate d p) = false := by
  intro d
  induction d with
  | zero => rfl
  | succ d ih =>
    simp only [List.replicate_succ, hasIllegal, violatesB_self, Bool.false_or]
    exact ih

lemma except_bind_ok {a b : Type} (x : a) (f : a → Except PyErr b) :
    (Except.ok x >>= f) = f x := rfl

lemma except_pure {a : Type} (x : a) : (pure x : Except PyErr a) = .ok x := rfl

/-- What `MpcEnum.__call__` returns, for a controller carrying `u_km1`:
the first position of the sequence `np.argmin` selects. -/
lemma MpcEnum_call_eq (sw : List Vec) (nl : ℕ) (ctr : Ctr) (yref : ℕ → Vec)
    (x p : Vec) (hinit : MpcEnum_init nl = .ok sw) (hNp : 1 ≤ ctr.Np)
    (hp : ctr.u_km1 = some p) :
    MpcEnum_call sw nl ctr yref x
      = .ok (((seqs sw ctr.Np).getD
          (argminFn (MpcEnum_run sw nl ctr yref x p).J (nl ^ (3 * ctr.Np))) []).headD []) := by
  have hnl : 1 ≤ nl := by rcases init_nl hinit with h | h <;> omega
  have hNpow : 0 < nl ^ (3 * ctr.Np) := pow_pos (by omega) _
  obtain ⟨h1, h2, h3⟩ := MpcEnum_run_spec sw nl ctr yref hinit hNp x p
  have hmi : argminFn (MpcEnum_run sw nl ctr yref x p).J (nl ^ (3 * ctr.Np))
      < nl ^ (3 * ctr.Np) := argminFn_lt _ _ hNpow
  have hlen : (seqs sw ctr.Np).length = nl ^ (3 * ctr.Np) := by
    rw [seqs_length, sw_comb_length hinit, ← pow_mul]
  have hsmem : (seqs sw ctr.Np).getD
      (argminFn (MpcEnum_run sw nl ctr yref x p).J (nl ^ (3 * ctr.Np))) []
      ∈ seqs sw ctr.Np := seqs_getD_mem _ _ _ (by omega)
  obtain ⟨d, hd⟩ : ∃ d, ctr.Np = d + 1 := ⟨ctr.Np - 1, by omega⟩
  obtain ⟨u0, t0, hs0, hu0, _⟩ := seqs_mem_cons sw d _ (by rw [← hd]; exact hsmem)
  have hu0len : u0.length = 3 := sw_comb_mem_length hinit u0 hu0
  simp only [MpcEnum_call, hp, pygetattr, except_bind_ok, except_pure]
  have hun : ∀ c', c' < 3 →
      (MpcEnum_run sw nl ctr yref x p).u_seq
        (argminFn (MpcEnum_run sw nl ctr yref x p).J (nl ^ (3 * ctr.Np))) c'
      = u0.getD c' 0 := by
    intro c' hc'
    rw [h3 _ hmi c' (by omega), hs0]
    simp only [List.flatten_cons]
    rw [List.getD_append _ _ _ _ (by omega)]
  rw [hun 0 (by omega), hun 1 (by omega), hun 2 (by omega)]
  rw [hs0]
  simp only [List.headD_cons]
  rw [vec_eq_of_len3 u0 hu0len]

/-- For a three-level converter every `MpcBnB.solve` call raises
`NameError` at its first constraint check, because the shared utils
predicate evaluates the undefined name `uk_abc`. -/
lemma MpcBnB_solve_three_err (sw : List Vec) (ctr : Ctr) (yref : ℕ → Vec)
    (hsw : MpcBnB_init 3 = .ok sw) :
    ∀ fuel x p ell Jprev st, 1 ≤ fuel →
      MpcBnB_solve sw 3 ctr yref fuel x p ell Jprev st = .error .nameError := by
  intro fuel x p ell Jprev st hfuel
  obtain ⟨f, hf⟩ : ∃ f, fuel = f + 1 := ⟨fuel - 1, by omega⟩
  subst hf
  have hswval : sw = prod3 [-1, 0, 1] := by
    have : MpcBnB_init 3 = .ok (prod3 [-1, 0, 1]) := rfl
    rw [this] at hsw
    exact (Except.ok.injEq _ _).mp hsw.symm
  subst hswval
  rfl

/-- Every admissible three-level value differs from its predecessor by at
most one level. -/
lemma allowed_adjacent (u_old u : ℚ) (l : List ℚ)
    (h : MpcSpheDec_get_allowed_switch_positions 3 u_old = .ok l) (hu : u ∈ l) :
    |u - u_old| ≤ 1 := by
  by_cases h1 : u_old = -1
  · subst h1
    rw [show MpcSpheDec_get_allowed_switch_positions 3 (-1 : ℚ) = .ok [-1, 0]
      from by norm_num [MpcSpheDec_get_allowed_switch_positions]] at h
    have hl : l = [-1, 0] := ((Except.ok.injEq _ _).mp h).symm
    subst hl
    simp only [List.mem_cons, List.not_mem_nil, or_false] at hu
    rcases hu with h | h <;> subst h <;> norm_num
  · by_cases h2 : u_old = 0
    · subst h2
      rw [show MpcSpheDec_get_allowed_switch_positions 3 (0 : ℚ) = .ok [-1, 0, 1]
        from by norm_num [MpcSpheDec_get_allowed_switch_positions]] at h
      have hl : l = [-1, 0, 1] := ((Except.ok.injEq _ _).mp h).symm
      subst hl
      simp only [List.mem_cons, List.not_mem_nil, or_false] at hu
      rcases hu with h | h | h <;> subst h <;> norm_num
    · by_cases h3 : u_old = 1
      · subst h3
        rw [show MpcSpheDec_get_allowed_switch_positions 3 (1 : ℚ) = .ok [0, 1]
          from by norm_num [MpcSpheDec_get_allowed_switch_positions]] at h
        have hl : l = [0, 1] := ((Except.ok.injEq _ _).mp h).symm
        subst hl
        simp only [List.mem_cons, List.not_mem_nil, or_false] at hu
        rcases hu with h | h <;> subst h <;> norm_num
      · rw [show MpcSpheDec_get_allowed_switch_positions 3 u_old = .error .unboundLocal
          from by simp [MpcSpheDec_get_allowed_switch_positions, h1, h2, h3]] at h
        exact (Except.noConfusion h)

lemma except_bind_err {a b : Type} (e : PyErr) (f : a → Except PyErr b) :
    ((Except.error e : Except PyErr a) >>= f) = .error e := rfl

lemma except_bind_pure {a b : Type} (x : a) (f : a → Except PyErr b) :
    ((pure x : Except PyErr a) >>= f) = f x := rfl

/-- Loop invariant of the sphere-decoder search: entries below the
current depth are never rewritten, and the champion's first three
entries always stay within one level of the previously applied
position. -/
lemma spheLoop_adj (Np : ℕ) (V : ℕ → ℕ → ℚ) (Ubar u_km1 : ℕ → ℚ)
    (rec : (ℕ → ℚ) → (ℕ → ℚ) → ℚ → ℕ → ℚ → Except PyErr ((ℕ → ℚ) × (ℕ → ℚ) × ℚ))
    (i : ℕ) (hi : i < 3 * Np)
    (Hrec : i + 1 < 3 * Np → ∀ U U_opt dist rho,
      (∀ j, j < 3 → j < i + 1 → |U j - u_km1 j| ≤ 1) →
      (∀ j, j < 3 → |U_opt j - u_km1 j| ≤ 1) →
      ∀ res, rec U U_opt dist (i + 1) rho = .ok res →
        (∀ j, j < i + 1 → res.1 j = U j) ∧ (∀ j, j < 3 → |res.2.1 j - u_km1 j| ≤ 1)) :
    ∀ (l : List ℚ), (i < 3 → ∀ u ∈ l, |u - u_km1 i| ≤ 1) →
    ∀ (dist : ℚ) (U U_opt : ℕ → ℚ) (rho : ℚ),
      (∀ j, j < 3 → j < i → |U j - u_km1 j| ≤ 1) →
      (∀ j, j < 3 → |U_opt j - u_km1 j| ≤ 1) →
      ∀ res, spheLoop Np V Ubar rec i dist l U U_opt rho = .ok res →
        (∀ j, j < i → res.1 j = U j) ∧ (∀ j, j < 3 → |res.2.1 j - u_km1 j| ≤ 1) := by
  intro l
  induction l with
  | nil =>
    intro _ dist U U_opt rho hU hQ res hres
    have : res = (U, U_opt, rho) := by
      simpa [spheLoop] using hres.symm
    subst this
    exact ⟨fun j _ => rfl, hQ⟩
  | cons u rest ih =>
    intro hl dist U U_opt rho hU hQ res hres
    have hU1 : ∀ j, j < 3 → j < i + 1 → |setAt U i u j - u_km1 j| ≤ 1 := by
      intro j hj3 hji
      by_cases hji' : j = i
      · subst hji'
        simp only [setAt, if_pos rfl]
        exact hl hj3 u (by simp)
      · simp only [setAt, if_neg hji']
        exact hU j hj3 (by omega)
    have hU1pres : ∀ j, j < i → setAt U i u j = U j := by
      intro j hj
      simp only [setAt, if_neg (by omega : ¬j = i)]
    by_cases hd : (Ubar i - rowDot V i (setAt U i u)) ^ 2 + dist ≤ rho
    · by_cases hi2 : i < 3 * Np - 1
      · -- descend into the branch
        cases hrec : rec (setAt U i u) U_opt ((Ubar i - rowDot V i (setAt U i u)) ^ 2 + dist)
            (i + 1) rho with
        | error e =>
          rw [show spheLoop Np V Ubar rec i dist (u :: rest) U U_opt rho
              = .error e from by
            simp only [spheLoop, if_pos hd, if_pos hi2, hrec, except_bind_err]] at hres
          exact (Except.noConfusion hres)
        | ok res' =>
          obtain ⟨hpre', hQ'⟩ := Hrec (by omega) (setAt U i u) U_opt _ rho hU1 hQ res' hrec
          have hres' : spheLoop Np V Ubar rec i dist rest res'.1 res'.2.1 res'.2.2
              = .ok res := by
            rw [show spheLoop Np V Ubar rec i dist (u :: rest) U U_opt rho
                = spheLoop Np V Ubar rec i dist rest res'.1 res'.2.1 res'.2.2 from by
              simp only [spheLoop, if_pos hd, if_pos hi2, hrec, except_bind_ok]] at hres
            exact hres
          obtain ⟨hp, hq⟩ := ih (fun h3 u' hu' => hl h3 u' (by simp [hu'])) dist
            res'.1 res'.2.1 res'.2.2
            (fun j hj3 hji => by rw [hpre' j (by omega)]
                                 exact hU1 j hj3 (by omega)) hQ' res hres'
          refine ⟨fun j hj => ?_, hq⟩
          rw [hp j hj, hpre' j (by omega), hU1pres j hj]
      · -- full-depth leaf: the champion becomes the current sequence
        have hileaf : i + 1 = 3 * Np := by omega
        have hQ1 : ∀ j, j < 3 → |setAt U i u j - u_km1 j| ≤ 1 := by
          intro j hj3
          exact hU1 j hj3 (by omega)
        have hres' : spheLoop Np V Ubar rec i dist rest (setAt U i u) (setAt U i u)
            ((Ubar i - rowDot V i (setAt U i u)) ^ 2 + dist) = .ok res := by
          rw [show spheLoop Np V Ubar rec i dist (u :: rest) U U_opt rho
              = spheLoop Np V Ubar rec i dist rest (setAt U i u) (setAt U i u)
                ((Ubar i - rowDot V i (setAt U i u)) ^ 2 + dist) from by
            simp only [spheLoop, if_pos hd, if_neg hi2, except_bind_pure]] at hres
          exact hres
        obtain ⟨hp, hq⟩ := ih (fun h3 u' hu' => hl h3 u' (by simp [hu'])) dist
          (setAt U i u) (setAt U i u) _
          (fun j hj3 hji => hU1 j hj3 (by omega)) hQ1 res hres'
        refine ⟨fun j hj => ?_, hq⟩
        rw [hp j hj, hU1pres j hj]
    · -- pruned branch: champion and radius unchanged
      have hres' : spheLoop Np V Ubar rec i dist rest (setAt U i u) U_opt rho
          = .ok res := by
        rw [show spheLoop Np V Ubar rec i dist (u :: rest) U U_opt rho
            = spheLoop Np V Ubar rec i dist rest (setAt U i u) U_opt rho from by
          simp only [spheLoop, if_neg hd, except_bind_pure]] at hres
        exact hres
      obtain ⟨hp, hq⟩ := ih (fun h3 u' hu' => hl h3 u' (by simp [hu'])) dist
        (setAt U i u) U_opt rho
        (fun j hj3 hji => by rw [hU1pres j hji]
                             exact hU j hj3 hji) hQ res hres'
      refine ⟨fun j hj => ?_, hq⟩
      rw [hp j hj, hU1pres j hj]

/-- The sphere-decoder recursion never rewrites entries below its entry
depth, and its champion's first three entries stay within one level of
the previously applied position. -/
lemma sphe_dec_adj (Np : ℕ) (V : ℕ → ℕ → ℚ) (Ubar u_km1 : ℕ → ℚ) :
    ∀ (fuel i : ℕ), i < 3 * Np → fuel = 3 * Np - i →
    ∀ (U U_opt : ℕ → ℚ) (dist rho : ℚ),
      (∀ j, j < 3 → j < i → |U j - u_km1 j| ≤ 1) →
      (∀ j, j < 3 → |U_opt j - u_km1 j| ≤ 1) →
      ∀ res, MpcSpheDec_sphe_dec 3 Np V Ubar u_km1 fuel U U_opt dist i rho = .ok res →
        (∀ j, j < i → res.1 j = U j) ∧ (∀ j, j < 3 → |res.2.1 j - u_km1 j| ≤ 1) := by
  intro fuel
  induction fuel with
  | zero =>
    intro i hi hfuel
    exact absurd hfuel (by omega)
  | succ fuel ihf =>
    intro i hi hfuel U U_opt dist rho hU hQ res hres
    cases hga : MpcSpheDec_get_allowed_switch_positions 3
        (if i < 3 then u_km1 i else U (i - 3)) with
    | error e =>
      rw [show MpcSpheDec_sphe_dec 3 Np V Ubar u_km1 (fuel + 1) U U_opt dist i rho
          = .error e from by
        simp only [MpcSpheDec_sphe_dec, hga, except_bind_err]] at hres
      exact (Except.noConfusion hres)
    | ok l =>
      have hres' : spheLoop Np V Ubar (MpcSpheDec_sphe_dec 3 Np V Ubar u_km1 fuel)
          i dist l U U_opt rho = .ok res := by
        rw [show MpcSpheDec_sphe_dec 3 Np V Ubar u_km1 (fuel + 1) U U_opt dist i rho
            = spheLoop Np V Ubar (MpcSpheDec_sphe_dec 3 Np V Ubar u_km1 fuel)
              i dist l U U_opt rho from by
          simp only [MpcSpheDec_sphe_dec, hga, except_bind_ok]] at hres
        exact hres
      have hl : i < 3 → ∀ u ∈ l, |u - u_km1 i| ≤ 1 := by
        intro hi3 u hu
        rw [if_pos hi3] at hga
        exact allowed_adjacent (u_km1 i) u l hga hu
      exact spheLoop_adj Np V Ubar u_km1 (MpcSpheDec_sphe_dec 3 Np V Ubar u_km1 fuel)
        i hi
        (fun hi1 U' Uopt' dist' rho' hU' hQ' res'' hres'' =>
          ihf (i + 1) hi1 (by omega) U' Uopt' dist' rho' hU' hQ' res'' hres'')
        l hl dist U U_opt rho hU hQ res hres'

/-- On a legal sequence the enumeration cost is exactly the sum of the
per-step costs with reference index `k` (pairing `y_ref[k]` with the
state predicted at step `k+1`). -/
lemma pureJ_eq_horizonSum (nl : ℕ) (ctr : Ctr) (yref : ℕ → Vec) :
    ∀ (s : List Vec) (x p : Vec) (k : ℕ), hasIllegal nl p s = false →
      pureJ nl ctr yref x p k s
        = ((horizonSum ctr yref 0 x p k s : ℚ) : WithTop ℚ) := by
  intro s
  induction s with
  | nil => intro x p k _; simp [pureJ, horizonSum]
  | cons u rest ih =>
    intro x p k hleg
    simp only [hasIllegal, Bool.or_eq_false_iff] at hleg
    obtain ⟨hv, hrest⟩ := hleg
    simp only [pureJ, horizonSum, hv, Bool.false_eq_true, if_false, Nat.add_zero]
    rw [ih _ _ _ hrest, ← WithTop.coe_add]

/-- The branch-and-bound accumulation along a path equals the starting
cost plus the sum of per-step costs with reference index `ell + 1`. -/
lemma bnbPathJ_eq_horizonSum (ctr : Ctr) (yref : ℕ → Vec) :
    ∀ (s : List Vec) (J_prev : ℚ) (x p : Vec) (ell : ℕ),
      bnbPathJ ctr yref J_prev x p ell s
        = J_prev + horizonSum ctr yref 1 x p ell s := by
  intro s
  induction s with
  | nil => intro J x p ell; simp [bnbPathJ, horizonSum]
  | cons u rest ih =>
    intro J x p ell
    simp only [bnbPathJ, horizonSum, ih, bnbJtemp, stepCost]
    ring

/-- With every consecutive pair of reference samples equal, the two
pairings produce the same total cost for every sequence. -/
lemma horizonSum_shift_eq (ctr : Ctr) (yref : ℕ → Vec)
    (hy : ∀ j, yref j = yref (j + 1)) :
    ∀ (s : List Vec) (x p : Vec) (k : ℕ),
      horizonSum ctr yref 0 x p k s = horizonSum ctr yref 1 x p k s := by
  intro s
  induction s with
  | nil => intro x p k; rfl
  | cons u rest ih =>
    intro x p k
    simp only [horizonSum, ih, Nat.add_zero]
    rw [hy k]

/-- Additivity of the total cost across a split of the horizon. -/
lemma horizonSum_append (ctr : Ctr) (yref : ℕ → Vec) (shift : ℕ) :
    ∀ (s t : List Vec) (x p : Vec) (k : ℕ),
      horizonSum ctr yref shift x p k (s ++ t)
        = horizonSum ctr yref shift x p k s
          + horizonSum ctr yref shift (seqEnd ctr x p k s).1
              (seqEnd ctr x p k s).2.1 (seqEnd ctr x p k s).2.2 t := by
  intro s
  induction s with
  | nil => intro t x p k; simp [horizonSum, seqEnd]
  | cons u rest ih =>
    intro t x p k
    simp only [List.cons_append, horizonSum, seqEnd]
    rw [show rest.append t = rest ++ t from rfl, ih]
    ring

/-- Three phase-wise level changes of at most one never violate the
three-level switching constraint. -/
lemma violatesB3_of_adj (a b c x y z : ℚ) (h0 : |a - x| ≤ 1) (h1 : |b - y| ≤ 1)
    (h2 : |c - z| ≤ 1) : violatesB 3 [a, b, c] [x, y, z] = false := by
  have hval : linf (vsub [a, b, c] [x, y, z])
      = max |a - x| (max |b - y| (max |c - z| 0)) := by
    show qmax (qabs (a - x)) (qmax (qabs (b - y)) (qmax (qabs (c - z)) 0)) = _
    rw [qabs_eq_abs, qabs_eq_abs, qabs_eq_abs, qmax_eq_max, qmax_eq_max, qmax_eq_max]
  have hnot : ¬(2 ≤ linf (vsub [a, b, c] [x, y, z])) := by
    rw [hval]
    intro hge
    have hm : max |a - x| (max |b - y| (max |c - z| 0)) ≤ 1 :=
      max_le h0 (max_le h1 (max_le h2 (by norm_num)))
    linarith
  show (if (3 : ℕ) = 3 then decide (2 ≤ linf (vsub [a, b, c] [x, y, z])) else false)
    = false
  rw [if_pos rfl, decide_eq_false hnot]

/-! ## The claims -/

/-- C2: the shared solver utility `switching_constraint_violated`
(solvers/utils.py) returns `False` for `nl = 2`; but for `nl = 3` it
raises `NameError` on every input — including the spec's Scenario 2
(`previous = [-1,-1,-1]`, `candidate = [1,1,1]`), where the claim says
it must return `True` — because its `nl == 3` branch evaluates the
undefined name `uk_abc` (the parameter is `u_abc`). -/
theorem claim_C2 :
    (∀ u_abc u_km1_abc : Vec,
      utils_switching_constraint_violated 2 u_abc u_km1_abc = .ok false) ∧
    (∀ u_abc u_km1_abc : Vec,
      utils_switching_constraint_violated 3 u_abc u_km1_abc = .error .nameError) ∧
    utils_switching_constraint_violated 3 [1, 1, 1] [-1, -1, -1]
      = .error .nameError :=
  ⟨fun _ _ => rfl, fun _ _ => rfl, rfl⟩

/-- C8: both `get_allowed_switch_positions` implementations return
`[-1, 1]` for `nl = 2` whatever the previous value, and for `nl = 3`
return `[-1, 0]`, `[-1, 0, 1]`, `[0, 1]` after previous values `-1`,
`0`, `1` respectively. -/
theorem claim_C8 :
    (∀ u : ℚ, MpcSpheDec_get_allowed_switch_positions 2 u = .ok [-1, 1]) ∧
    (∀ u : ℚ, Converter_get_allowed_switch_positions 2 u = .ok [-1, 1]) ∧
    MpcSpheDec_get_allowed_switch_positions 3 (-1) = .ok [-1, 0] ∧
    MpcSpheDec_get_allowed_switch_positions 3 0 = .ok [-1, 0, 1] ∧
    MpcSpheDec_get_allowed_switch_positions 3 1 = .ok [0, 1] ∧
    Converter_get_allowed_switch_positions 3 (-1) = .ok [-1, 0] ∧
    Converter_get_allowed_switch_positions 3 0 = .ok [-1, 0, 1] ∧
    Converter_get_allowed_switch_positions 3 1 = .ok [0, 1] :=
  ⟨fun _ => rfl, fun _ => rfl, by decide, by decide, by decide,
    by decide, by decide, by decide⟩

/-- C9: `Converter.switching_constraint_violated` and
`MpcEnum.switching_constraint_violated` return the falsy int `0` for
`nl = 2`, and for `nl = 3` return `True` exactly when the Chebyshev
distance between the positions is at least 2; in particular Scenario 3
(`previous = [-1,-1,-1]`, `candidate = [0,0,0]`) returns `False`. -/
theorem claim_C9 :
    (∀ u p : Vec, Converter_switching_constraint_violated 2 u p = .ok (.vint 0)) ∧
    (PyTruth.vint 0).truthy = false ∧
    (∀ u p : Vec, MpcEnum_switching_constraint_violated 2 u p = .ok (.vint 0)) ∧
    (∀ u p : Vec, (Converter_switching_constraint_violated 3 u p = .ok (.vbool true)
      ↔ 2 ≤ linf (vsub u p))) ∧
    (∀ u p : Vec, (MpcEnum_switching_constraint_violated 3 u p = .ok (.vbool true)
      ↔ 2 ≤ linf (vsub u p))) ∧
    Converter_switching_constraint_violated 3 [0, 0, 0] [-1, -1, -1]
      = .ok (.vbool false) ∧
    MpcEnum_switching_constraint_violated 3 [0, 0, 0] [-1, -1, -1]
      = .ok (.vbool false) := by
  refine ⟨fun _ _ => rfl, rfl, fun _ _ => rfl, ?_, ?_, by decide!, by decide!⟩
  · intro u p
    simp [Converter_switching_constraint_violated]
  · intro u p
    simp [MpcEnum_switching_constraint_violated]

/-- C10 (counterexample to the claim as stated): on the real object —
`QP_matrices` is `None` from `__init__` and is never rebound — a
controller lacking `u_km1_abc` makes `IndirectMpcQP.__call__` raise
`TypeError` at line 56 (the `make_QP_matrices` arity mismatch), not the
`AttributeError` that "reads the attribute `u_km1_abc`" would produce:
line 63's read is never reached. -/
theorem claim_C10_counterexample :
    IndirectMpcQP_call IndirectMpcQP_init { ctrDemo with u_km1_abc := none } none
      = .error .typeError ∧ PyErr.typeError ≠ PyErr.attributeError :=
  ⟨rfl, by decide⟩

/-- C10 (amended): `MpcEnum.__call__` reads the controller attribute
`u_km1` and `MpcBnB.__call__` reads `u_km1_abc` (each raises
`AttributeError` when its attribute is missing); `IndirectMpcQP.__call__`
mentions `u_km1_abc` at line 63, but on the real object (`QP_matrices`
is `None` from `__init__` and never rebound) every call raises
`TypeError` at line 56 before that read, whatever the controller's
attributes — the read would be reached only if the matrices were
already present.  A controller defining only `u_km1_abc` — as
`RLGridMpcCurrCtr` does — therefore makes `MpcEnum.__call__` raise
`AttributeError` before any solving. -/
theorem claim_C10 :
    (∀ (sw : List Vec) (nl : ℕ) (ctr : Ctr) (yref : ℕ → Vec) (x : Vec),
      ctr.u_km1 = none → MpcEnum_call sw nl ctr yref x = .error .attributeError) ∧
    (∀ (sw : List Vec) (nl : ℕ) (ctr : Ctr) (yref : ℕ → Vec) (x : Vec),
      ctr.u_km1_abc = none → MpcBnB_call sw nl ctr yref x = .error .attributeError) ∧
    (∀ (ctr : Ctr) (r : Option Vec),
      IndirectMpcQP_call IndirectMpcQP_init ctr r = .error .typeError) ∧
    (∀ (ctr : Ctr) (r : Option Vec) (m : Unit),
      ctr.u_km1_abc = none →
        IndirectMpcQP_call (some m) ctr r = .error .attributeError) ∧
    (∀ (lam : ℚ) (Np : ℕ) (next : Vec → Vec → ℕ → Vec) (sw : List Vec) (nl : ℕ)
      (yref : ℕ → Vec) (x : Vec),
      MpcEnum_call sw nl (RLGridMpcCurrCtr_init lam Np next) yref x
        = .error .attributeError) := by
  refine ⟨?_, ?_, ?_, ?_, ?_⟩
  · intro sw nl ctr yref x h
    simp only [MpcEnum_call, h, pygetattr, except_bind_err]
  · intro sw nl ctr yref x h
    simp only [MpcBnB_call, MpcBnB_run, h, pygetattr, except_bind_err]
  · intro ctr r
    rfl
  · intro ctr r m h
    simp only [IndirectMpcQP_call, h, pygetattr, except_bind_ok, except_bind_err]
  · intro lam Np next sw nl yref x
    simp only [MpcEnum_call, RLGridMpcCurrCtr_init, pygetattr, except_bind_err]

/-- Witness for C10 at concrete inputs. -/
theorem claim_C10_witness :
    MpcEnum_call (prod3 [-1, 1]) 2 { ctrDemo with u_km1 := none } yrefDemo xDemo
      = .error .attributeError ∧
    MpcBnB_call (prod3 [-1, 1]) 2 { ctrDemo with u_km1_abc := none } yrefDemo xDemo
      = .error .attributeError ∧
    IndirectMpcQP_call IndirectMpcQP_init ctrDemo none = .error .typeError ∧
    IndirectMpcQP_call (some ()) { ctrDemo with u_km1_abc := none } none
      = .error .attributeError ∧
    MpcEnum_call (prod3 [-1, 1]) 2 (RLGridMpcCurrCtr_init 0 1 (fun _ u _ => u))
      yrefDemo xDemo = .error .attributeError :=
  ⟨claim_C10.1 _ 2 _ yrefDemo xDemo rfl,
    claim_C10.2.1 _ 2 _ yrefDemo xDemo rfl,
    claim_C10.2.2.1 ctrDemo none,
    claim_C10.2.2.2.1 _ none () rfl,
    claim_C10.2.2.2.2 0 1 _ _ 2 yrefDemo xDemo⟩

/-- C4: the infeasibility-handling contract is untestable because the
code is broken earlier.  On the real object — `QP_matrices` is `None`
from `__init__` and is never rebound — every invocation of
`IndirectMpcQP.__call__` raises `TypeError` at mpc_QP.py line 56, where
`make_QP_matrices(sys, conv, ctr)` passes three arguments to the
two-parameter `utils.make_QP_matrices`; the QP backend at line 94 is
never invoked, so no backend verdict (infeasible or otherwise) is ever
surfaced, and the `TypeError` raised is in any case not the
`InfeasibleOptimizationError` the spec names, a class the source never
defines. -/
theorem claim_C4 :
    ∀ (ctr : Ctr) (solve_qp_result : Option Vec),
      IndirectMpcQP_call IndirectMpcQP_init ctr solve_qp_result
        = .error .typeError ∧
      PyErr.typeError ≠ PyErr.infeasibleOptimizationError :=
  fun _ _ => ⟨rfl, by decide⟩

/-- C1: the three solvers do not return identical costs on identical
inputs.  For `nl = 3`, `MpcBnB` raises `NameError` before returning
anything (the shared utils constraint check evaluates the undefined
name `uk_abc`).  Already for `nl = 2` with the same `y_ref` argument,
`MpcEnum` attains minimal cost 2 (it charges the state predicted at
step 1 against `y_ref[0] = [0,0]`) while `MpcBnB` attains minimal cost
162 (it charges the same state against `y_ref[1] = [10,10]`), far
beyond any floating-point tolerance. -/
theorem claim_C1 :
    MpcBnB_call (prod3 [-1, 0, 1]) 3 ctrDemo yrefDemo xDemo = .error .nameError ∧
    (MpcEnum_run (prod3 [-1, 1]) 2 ctrDemo yrefDemo xDemo [-1, -1, -1]).J
        (argminFn (MpcEnum_run (prod3 [-1, 1]) 2 ctrDemo yrefDemo xDemo [-1, -1, -1]).J
          (2 ^ (3 * ctrDemo.Np)))
      = ((2 : ℚ) : WithTop ℚ) ∧
    (MpcBnB_run (prod3 [-1, 1]) 2 ctrDemo yrefDemo xDemo).map BnbSt.J_min
      = .ok ((162 : ℚ) : WithTop ℚ) ∧
    ((2 : ℚ) : WithTop ℚ) ≠ ((162 : ℚ) : WithTop ℚ) := by
  refine ⟨by decide!, by decide!, by decide!, by decide!⟩

/-- C5: on a legal sequence, the cost `MpcEnum.solve` stores is the sum
of per-step costs reading `y_ref[k]` against the state predicted at
step `k+1` (indices `0..Np-1` from step 0), while the `J_temp`
accumulation of `MpcBnB.solve` reads `y_ref[ell+1]` (indices `1..Np`);
the two totals agree for every sequence whenever consecutive reference
samples are equal, and differ on a concrete non-constant reference. -/
theorem claim_C5 :
    (∀ (nl : ℕ) (ctr : Ctr) (yref : ℕ → Vec) (x p : Vec) (k : ℕ) (s : List Vec),
      hasIllegal nl p s = false →
      pureJ nl ctr yref x p k s
        = ((horizonSum ctr yref 0 x p k s : ℚ) : WithTop ℚ)) ∧
    (∀ (ctr : Ctr) (yref : ℕ → Vec) (J_prev : ℚ) (x p : Vec) (ell : ℕ) (s : List Vec),
      bnbPathJ ctr yref J_prev x p ell s
        = J_prev + horizonSum ctr yref 1 x p ell s) ∧
    (∀ (ctr : Ctr) (yref : ℕ → Vec), (∀ j, yref j = yref (j + 1)) →
      ∀ (nl : ℕ) (x p : Vec) (k : ℕ) (s : List Vec), hasIllegal nl p s = false →
      pureJ nl ctr yref x p k s = ((bnbPathJ ctr yref 0 x p k s : ℚ) : WithTop ℚ)) ∧
    pureJ 2 ctrDemo yrefDemo xDemo [-1, -1, -1] 0 [[1, 1, 1]]
      ≠ ((bnbPathJ ctrDemo yrefDemo 0 xDemo [-1, -1, -1] 0 [[1, 1, 1]] : ℚ) : WithTop ℚ) := by
  refine ⟨fun nl ctr yref x p k s h => pureJ_eq_horizonSum nl ctr yref s x p k h,
    fun ctr yref J x p ell s => bnbPathJ_eq_horizonSum ctr yref s J x p ell,
    ?_, by decide!⟩
  intro ctr yref hy nl x p k s hleg
  rw [pureJ_eq_horizonSum nl ctr yref s x p k hleg,
    bnbPathJ_eq_horizonSum ctr yref s 0 x p k, zero_add,
    horizonSum_shift_eq ctr yref hy s x p k]

/-- Witness for C5 on concrete legal sequences, for the legality and
constant-reference hypotheses. -/
theorem claim_C5_witness :
    pureJ 2 ctrDemo yrefDemo xDemo [-1, -1, -1] 0 [[1, 1, 1]]
      = ((horizonSum ctrDemo yrefDemo 0 xDemo [-1, -1, -1] 0 [[1, 1, 1]] : ℚ) : WithTop ℚ) ∧
    pureJ 2 ctrDemo yrefConst xDemo [-1, -1, -1] 0 [[1, 1, 1]]
      = ((bnbPathJ ctrDemo yrefConst 0 xDemo [-1, -1, -1] 0 [[1, 1, 1]] : ℚ) : WithTop ℚ) :=
  ⟨claim_C5.1 2 ctrDemo yrefDemo xDemo [-1, -1, -1] 0 [[1, 1, 1]] (by decide!),
    claim_C5.2.2.1 ctrDemo yrefConst (fun j => rfl) 2 xDemo [-1, -1, -1] 0
      [[1, 1, 1]] (by decide!)⟩

/-- C7: the per-step cost the solvers compute is
`‖reference − C·predictedState‖² + lambda_u·‖candidate − previous‖₁`
(`stepCost`, with `Q` the identity): the cost `MpcEnum.solve` stores
for a legal sequence is the sum of these per-step costs, the `J_temp`
update of `MpcBnB.solve` adds exactly one such per-step cost, and the
total is additive over any split of the horizon. -/
theorem claim_C7 :
    (∀ (nl : ℕ) (ctr : Ctr) (yref : ℕ → Vec) (x p : Vec) (k : ℕ) (s : List Vec),
      hasIllegal nl p s = false →
      pureJ nl ctr yref x p k s
        = ((horizonSum ctr yref 0 x p k s : ℚ) : WithTop ℚ)) ∧
    (∀ (ctr : Ctr) (yref : ℕ → Vec) (J_prev : ℚ) (x u p : Vec) (ell : ℕ),
      bnbJtemp ctr yref J_prev x u p ell
        = J_prev + stepCost ctr.C ctr.lambda_u (yref (ell + 1))
            (ctr.get_next_state x u ell) u p) ∧
    (∀ (ctr : Ctr) (yref : ℕ → Vec) (shift : ℕ) (s t : List Vec) (x p : Vec) (k : ℕ),
      horizonSum ctr yref shift x p k (s ++ t)
        = horizonSum ctr yref shift x p k s
          + horizonSum ctr yref shift (seqEnd ctr x p k s).1
              (seqEnd ctr x p k s).2.1 (seqEnd ctr x p k s).2.2 t) := by
  refine ⟨fun nl ctr yref x p k s h => pureJ_eq_horizonSum nl ctr yref s x p k h,
    ?_, fun ctr yref shift s t x p k => horizonSum_append ctr yref shift s t x p k⟩
  intro ctr yref J x u p ell
  simp only [bnbJtemp, stepCost]
  ring

/-- Witness for C7 on a concrete legal sequence. -/
theorem claim_C7_witness :
    pureJ 2 ctrDemo yrefConst xDemo [-1, -1, -1] 0 [[1, 1, 1], [-1, 1, -1]]
      = ((horizonSum ctrDemo yrefConst 0 xDemo [-1, -1, -1] 0
          [[1, 1, 1], [-1, 1, -1]] : ℚ) : WithTop ℚ) :=
  claim_C7.1 2 ctrDemo yrefConst xDemo [-1, -1, -1] 0 [[1, 1, 1], [-1, 1, -1]]
    (by decide!)

/-- C6: `MpcEnum.__call__` evaluates exactly `nl^(3*Np)` switch
sequences (the leaf counter ends there); a sequence's cost slot holds
`inf` exactly when the sequence contains an illegal transition (the
slot is kept, aligned with the enumeration order); and the returned
value is the first position of the sequence `np.argmin(J)` selects —
the minimum-cost sequence with ties broken by the first index in the
Cartesian-product enumeration order. -/
theorem claim_C6 (nl : ℕ) (sw : List Vec) (ctr : Ctr) (yref : ℕ → Vec) (x p : Vec)
    (hinit : MpcEnum_init nl = .ok sw) (hNp : 1 ≤ ctr.Np) (hp : ctr.u_km1 = some p) :
    (MpcEnum_run sw nl ctr yref x p).i = nl ^ (3 * ctr.Np) ∧
    (∀ m, m < nl ^ (3 * ctr.Np) →
      ((MpcEnum_run sw nl ctr yref x p).J m = ⊤
        ↔ hasIllegal nl p ((seqs sw ctr.Np).getD m []) = true)) ∧
    MpcEnum_call sw nl ctr yref x
      = .ok (((seqs sw ctr.Np).getD
          (argminFn (MpcEnum_run sw nl ctr yref x p).J (nl ^ (3 * ctr.Np))) []).headD []) ∧
    (∀ r, r < nl ^ (3 * ctr.Np) →
      (MpcEnum_run sw nl ctr yref x p).J
          (argminFn (MpcEnum_run sw nl ctr yref x p).J (nl ^ (3 * ctr.Np)))
        ≤ (MpcEnum_run sw nl ctr yref x p).J r) ∧
    (∀ r, r < argminFn (MpcEnum_run sw nl ctr yref x p).J (nl ^ (3 * ctr.Np)) →
      (MpcEnum_run sw nl ctr yref x p).J
          (argminFn (MpcEnum_run sw nl ctr yref x p).J (nl ^ (3 * ctr.Np)))
        < (MpcEnum_run sw nl ctr yref x p).J r) := by
  obtain ⟨h1, h2, _⟩ := MpcEnum_run_spec sw nl ctr yref hinit hNp x p
  refine ⟨h1, ?_, MpcEnum_call_eq sw nl ctr yref x p hinit hNp hp,
    fun r hr => argminFn_min _ _ r hr, fun r hr => argminFn_first _ _ r hr⟩
  intro m hm
  rw [h2 m hm]
  exact pureJ_eq_top_iff nl ctr yref _ x p 0

/-- Witness for C6 at `nl = 2`, `Np = 1`. -/
theorem claim_C6_witness :
    (MpcEnum_run (prod3 [-1, 1]) 2 ctrDemo yrefDemo xDemo [-1, -1, -1]).i
      = 2 ^ (3 * ctrDemo.Np) :=
  (claim_C6 2 (prod3 [-1, 1]) ctrDemo yrefDemo xDemo [-1, -1, -1] rfl
    (by decide) rfl).1

/-- An `.ok` result of `MpcEnum.__call__` on a three-level converter
never violates the switching constraint against the controller's
previous position, provided that position is itself a valid three-phase
switch position. -/
lemma MpcEnum_call_legal_three (sw : List Vec) (ctr : Ctr) (yref : ℕ → Vec)
    (x p u : Vec) (hinit : MpcEnum_init 3 = .ok sw) (hNp : 1 ≤ ctr.Np)
    (hp : ctr.u_km1 = some p) (hmem : p ∈ sw)
    (hres : MpcEnum_call sw 3 ctr yref x = .ok u) :
    violatesB 3 u p = false := by
  have hcall := MpcEnum_call_eq sw 3 ctr yref x p hinit hNp hp
  rw [hres] at hcall
  have hu : u = ((seqs sw ctr.Np).getD
      (argminFn (MpcEnum_run sw 3 ctr yref x p).J (3 ^ (3 * ctr.Np))) []).headD [] :=
    (Except.ok.injEq _ _).mp hcall
  obtain ⟨_, h2, _⟩ := MpcEnum_run_spec sw 3 ctr yref hinit hNp x p
  have hNpow : 0 < 3 ^ (3 * ctr.Np) := pow_pos (by omega) _
  have hlen : (seqs sw ctr.Np).length = 3 ^ (3 * ctr.Np) := by
    rw [seqs_length, sw_comb_length hinit, ← pow_mul]
  have hmi : argminFn (MpcEnum_run sw 3 ctr yref x p).J (3 ^ (3 * ctr.Np))
      < 3 ^ (3 * ctr.Np) := argminFn_lt _ _ hNpow
  -- the all-`p` sequence is legal, so the minimum cost is finite
  obtain ⟨⟨ridx, hridx⟩, hget⟩ := List.get_of_mem (replicate_mem_seqs sw p hmem ctr.Np)
  have hrep : (seqs sw ctr.Np).getD ridx [] = List.replicate ctr.Np p := by
    rw [List.getD_eq_getElem _ _ hridx]
    exact hget
  have hJrep : (MpcEnum_run sw 3 ctr yref x p).J ridx ≠ ⊤ := by
    rw [h2 ridx (by omega), hrep]
    intro htop
    rw [pureJ_eq_top_iff] at htop
    rw [hasIllegal_replicate] at htop
    exact Bool.false_ne_true htop
  have hJmin : (MpcEnum_run sw 3 ctr yref x p).J
      (argminFn (MpcEnum_run sw 3 ctr yref x p).J (3 ^ (3 * ctr.Np))) ≠ ⊤ := by
    intro htop
    have hle := argminFn_min (MpcEnum_run sw 3 ctr yref x p).J (3 ^ (3 * ctr.Np))
      ridx (by omega)
    rw [htop, top_le_iff] at hle
    exact hJrep hle
  have hlegal : hasIllegal 3 p ((seqs sw ctr.Np).getD
      (argminFn (MpcEnum_run sw 3 ctr yref x p).J (3 ^ (3 * ctr.Np))) []) = false := by
    rw [h2 _ hmi] at hJmin
    rcases Bool.eq_false_or_eq_true
        (hasIllegal 3 p ((seqs sw ctr.Np).getD
          (argminFn (MpcEnum_run sw 3 ctr yref x p).J (3 ^ (3 * ctr.Np))) [])) with h | h
    · exact absurd ((pureJ_eq_top_iff 3 ctr yref _ x p 0).mpr h) hJmin
    · exact h
  obtain ⟨d, hd⟩ : ∃ d, ctr.Np = d + 1 := ⟨ctr.Np - 1, by omega⟩
  have hsmem : (seqs sw ctr.Np).getD
      (argminFn (MpcEnum_run sw 3 ctr yref x p).J (3 ^ (3 * ctr.Np))) []
      ∈ seqs sw ctr.Np := seqs_getD_mem _ _ _ (by omega)
  obtain ⟨u0, t0, hs0, _, _⟩ := seqs_mem_cons sw d _ (by rw [← hd]; exact hsmem)
  rw [hs0] at hlegal hu
  simp only [hasIllegal, Bool.or_eq_false_iff] at hlegal
  simp only [List.headD_cons] at hu
  rw [hu]
  exact hlegal.1

/-- C3: any three-phase switch position an `.ok` result of the three
discrete solvers returns satisfies the switching constraint against the
previously applied position.  `MpcEnum`: the minimum-cost sequence has
finite cost (the stay-at-`p` sequence is legal), so its first
transition is legal.  `MpcBnB`: trivial for `nl = 2` (the constraint is
never violated) and vacuous for `nl = 3` (the call raises `NameError`).
`MpcSpheDec`: every champion entry in the first three slots comes from
`get_allowed_switch_positions` of the corresponding previous phase
value (or is the initial zero champion), hence within one level of it. -/
theorem claim_C3 :
    (∀ (nl : ℕ) (sw : List Vec) (ctr : Ctr) (yref : ℕ → Vec) (x p u : Vec),
      MpcEnum_init nl = .ok sw → 1 ≤ ctr.Np → ctr.u_km1 = some p →
      (nl = 3 → p ∈ sw) →
      MpcEnum_call sw nl ctr yref x = .ok u →
      violatesB nl u p = false) ∧
    (∀ (nl : ℕ) (sw : List Vec) (ctr : Ctr) (yref : ℕ → Vec) (x p u : Vec),
      MpcBnB_init nl = .ok sw → 1 ≤ ctr.Np → ctr.u_km1_abc = some p →
      MpcBnB_call sw nl ctr yref x = .ok u →
      violatesB nl u p = false) ∧
    (∀ (nl Np : ℕ) (V : ℕ → ℕ → ℚ) (U_bar_unc u_km1 U_ini : ℕ → ℚ) (rho : ℚ)
      (res : (ℕ → ℚ) × (ℕ → ℚ) × ℚ),
      (nl = 2 ∨ nl = 3) → 1 ≤ Np →
      (∀ j, j < 3 → u_km1 j = -1 ∨ u_km1 j = 0 ∨ u_km1 j = 1) →
      MpcSpheDec_sphe_dec nl Np V U_bar_unc u_km1 (3 * Np) U_ini (fun _ => 0) 0 0 rho
        = .ok res →
      violatesB nl [res.2.1 0, res.2.1 1, res.2.1 2] [u_km1 0, u_km1 1, u_km1 2]
        = false) := by
  refine ⟨?_, ?_, ?_⟩
  · intro nl sw ctr yref x p u hinit hNp hp hmem hres
    rcases init_nl hinit with h2 | h3
    · subst h2
      rfl
    · subst h3
      exact MpcEnum_call_legal_three sw ctr yref x p u hinit hNp hp (hmem rfl) hres
  · intro nl sw ctr yref x p u hinit hNp hp hres
    rcases init_nl hinit with h2 | h3
    · subst h2
      rfl
    · subst h3
      exfalso
      have herr := MpcBnB_solve_three_err sw ctr yref hinit ctr.Np x p 0 0 bnbSt0
        (by omega)
      have hrun : MpcBnB_run sw 3 ctr yref x = .error .nameError := by
        simp only [MpcBnB_run, hp, pygetattr, except_bind_ok, herr]
      rw [show MpcBnB_call sw 3 ctr yref x = .error .nameError from by
        simp only [MpcBnB_call, hrun, except_bind_err]] at hres
      exact Except.noConfusion hres
  · intro nl Np V Ubar ukm1 Uini rho res hnl hNp hkm hres
    rcases hnl with h2 | h3
    · subst h2
      rfl
    · subst h3
      have hQ0 : ∀ j, j < 3 → |(fun _ => (0 : ℚ)) j - ukm1 j| ≤ 1 := by
        intro j hj
        rcases hkm j hj with h | h | h <;> rw [h] <;> norm_num
      obtain ⟨_, hQ⟩ := sphe_dec_adj Np V Ubar ukm1 (3 * Np) 0 (by omega) (by omega)
        Uini (fun _ => 0) 0 rho (fun j _ h => absurd h (by omega)) hQ0 res hres
      exact violatesB3_of_adj _ _ _ _ _ _ (hQ 0 (by omega)) (hQ 1 (by omega))
        (hQ 2 (by omega))

/-- Witness for C3: each solver component applied at a concrete input. -/
theorem claim_C3_witness :
    violatesB 3 [0, 0, -1] [-1, -1, -1] = false ∧
    violatesB 2 [1, 1, -1] [-1, -1, -1] = false ∧
    violatesB 3 [spheResDemo.2.1 0, spheResDemo.2.1 1, spheResDemo.2.1 2] [0, 0, 0]
      = false := by
  refine ⟨?_, ?_, ?_⟩
  · exact claim_C3.1 3 (prod3 [-1, 0, 1]) ctrDemo yrefDemo xDemo [-1, -1, -1]
      [0, 0, -1] rfl (by decide) rfl (fun _ => by decide!) (by decide!)
  · exact claim_C3.2.1 2 (prod3 [-1, 1]) ctrDemo yrefDemo xDemo [-1, -1, -1]
      [1, 1, -1] rfl (by decide) rfl (by decide!)
  · have hok : (MpcSpheDec_sphe_dec 3 1 (fun _ _ => 0) (fun _ => 0) (fun _ => 0) 3
        (fun _ => 0) (fun _ => 0) 0 0 (-1)).toOption.isSome = true := by decide!
    cases h : MpcSpheDec_sphe_dec 3 1 (fun _ _ => 0) (fun _ => 0) (fun _ => 0) 3
        (fun _ => 0) (fun _ => 0) 0 0 (-1) with
    | error e =>
      rw [h] at hok
      simp [Except.toOption] at hok
    | ok r =>
      have hdemo : spheResDemo = r := by
        unfold spheResDemo
        rw [h]
      rw [hdemo]
      exact claim_C3.2.2 3 1 (fun _ _ => 0) (fun _ => 0) (fun _ => 0) (fun _ => 0)
        (-1) r (Or.inr rfl) (by omega) (fun j _ => Or.inr (Or.inl rfl)) h

end Soft4PES
